import Mathlib

/-!
# Verification of the tinyevents dispatcher

A shallow embedding of `include/tinyevents/tinyevents.hpp`: a type-keyed
publish/subscribe dispatcher with priority-ordered listener buckets, a
monotonic 64-bit handle counter, a pending-removal set used by the
`listenOnce` wrapper, and a FIFO deferred queue drained by `process()`.

Message types are modelled as natural-number tags, message payloads as
naturals, and user callbacks as deeply embedded command programs (`Cmd`)
so that re-entrant behaviour (recursive dispatch, removal mid-pass,
queueing during `process`) can be stated and proved.  The interpreter
`run` is fuel-indexed and structurally recursive, so concrete runs
evaluate by `decide`/`rfl`.  Every run records a trace of observable
events: listener invocations, dispatch entries, and handle assignments.
-/

namespace Tinyevents

/-- `2^64`, the modulus of the C++ `std::uint64_t` handle counter. -/
def W : Nat := 2 ^ 64

/-- A command a user callback (or top-level client code) can execute
against the dispatcher.  These are exactly the public mutating
operations of `Dispatcher`; `hasListener` is a pure query and is
modelled as a function on states instead. -/
inductive Cmd where
  | listen (ty : Nat) (priority : Int) (body : List Cmd)
  | listenOnce (ty : Nat) (priority : Int) (body : List Cmd)
  | dispatch (ty : Nat) (payload : Nat)
  | queue (ty : Nat) (payload : Nat)
  | process
  | remove (h : Nat)

/-- A stored type-erased callback: either a plain wrapped user callback
(from `listen`), or the `listenOnce` wrapper closure, which captured the
listener id `listenerId` and the user callback `body`
(tinyevents.hpp, `listenOnce`). -/
inductive Callback where
  | plain (body : List Cmd)
  | onceWrap (listenerId : Nat) (body : List Cmd)

/-- `Dispatcher::ListenerEntry` (tinyevents.hpp): handle, priority and
type-erased callback. -/
structure ListenerEntry where
  handle : Nat
  priority : Int
  callback : Callback

/-- The `Dispatcher` state (tinyevents.hpp, private fields):
`listenersByType` is the `std::map<std::type_index, std::vector<ListenerEntry>>`
(association list keyed by type tag), `queuedDispatches` the
`std::list` of queued closures (each closure captured one message by
value, so it is represented by the captured `(type, payload)` pair),
`listenersScheduledForRemoval` the `std::set<std::uint64_t>`
(represented as a duplicate-free list), and `nextListenerId` the
`std::uint64_t` counter (kept below `2^64`; increments wrap). -/
structure Dispatcher where
  listenersByType : List (Nat × List ListenerEntry)
  queuedDispatches : List (Nat × Nat)
  listenersScheduledForRemoval : List Nat
  nextListenerId : Nat

/-- The default-constructed dispatcher. -/
def emptyD : Dispatcher := ⟨[], [], [], 0⟩

/-- `listenersByType.find(type)`: the bucket for tag `ty`, if present. -/
def lookupBucket (d : Dispatcher) (ty : Nat) : Option (List ListenerEntry) :=
  (d.listenersByType.find? (fun p => p.1 == ty)).map (·.2)

/-- Replace the bucket for `ty`, or create it (as `std::map::operator[]`
followed by the mutation does). -/
def setBucket : List (Nat × List ListenerEntry) → Nat → List ListenerEntry →
    List (Nat × List ListenerEntry)
  | [], ty, l => [(ty, l)]
  | (k, v) :: rest, ty, l =>
    if k = ty then (k, l) :: rest else (k, v) :: setBucket rest ty l

/-- `std::find_if(listeners.begin(), .end(), e.priority < priority)`
followed by `listeners.insert(it, entry)`: insert the new entry before
the first entry whose priority is strictly less than the new one
(tinyevents.hpp, `addListener`). -/
def insertEntry (e : ListenerEntry) : List ListenerEntry → List ListenerEntry
  | [] => [e]
  | x :: xs =>
    if x.priority < e.priority then e :: x :: xs else x :: insertEntry e xs

/-- `std::set::insert` on the pending-removal set. -/
def pendingInsert (s : List Nat) (h : Nat) : List Nat :=
  if h ∈ s then s else h :: s

/-- `std::set::erase` on the pending-removal set. -/
def pendingErase (s : List Nat) (h : Nat) : List Nat :=
  s.filter (fun x => x ≠ h)

/-- `Dispatcher::addListener` (tinyevents.hpp): allocate the next handle,
build the entry, insert it at the priority-preserving position of the
bucket for `ty`, bump the (64-bit, wrapping) counter.  Returns the new
state together with the returned handle. -/
def addListener (d : Dispatcher) (ty : Nat) (priority : Int) (cb : Callback) :
    Dispatcher × Nat :=
  let bucket := (lookupBucket d ty).getD []
  let h := d.nextListenerId
  let entry : ListenerEntry := ⟨h, priority, cb⟩
  ({ d with
      listenersByType := setBucket d.listenersByType ty (insertEntry entry bucket)
      nextListenerId := (h + 1) % W }, h)

/-- `Dispatcher::listen` (function-callback overload): wrap the user
callback and register it. -/
def listenFn (d : Dispatcher) (ty : Nat) (priority : Int) (body : List Cmd) :
    Dispatcher × Nat :=
  addListener d ty priority (.plain body)

/-- `Dispatcher::listenOnce`: reads `nextListenerId` (the id the
forthcoming `listen` will assign), then registers the wrapper closure
capturing that id and the user callback. -/
def listenOnceFn (d : Dispatcher) (ty : Nat) (priority : Int) (body : List Cmd) :
    Dispatcher × Nat :=
  addListener d ty priority (.onceWrap d.nextListenerId body)

/-- `Dispatcher::remove` (tinyevents.hpp): no-op when the handle is in
the pending-removal set, otherwise erase every matching entry from every
bucket. -/
def removeFn (d : Dispatcher) (h : Nat) : Dispatcher :=
  if h ∈ d.listenersScheduledForRemoval then d
  else
    { d with
        listenersByType :=
          d.listenersByType.map (fun p => (p.1, p.2.filter (fun e => e.handle ≠ h))) }

/-- `Dispatcher::hasListener` (tinyevents.hpp): false when the handle is
pending removal, otherwise true iff some bucket contains it. -/
def hasListenerFn (d : Dispatcher) (h : Nat) : Bool :=
  if h ∈ d.listenersScheduledForRemoval then false
  else d.listenersByType.any (fun p => p.2.any (fun e => e.handle == h))

/-- `Dispatcher::queue`: append a closure capturing the message by value
to the deferred queue. -/
def queueFn (d : Dispatcher) (ty : Nat) (payload : Nat) : Dispatcher :=
  { d with queuedDispatches := d.queuedDispatches ++ [(ty, payload)] }

/-- Observable events of a run: `invoke h ty pay` records the invocation
of the listener entry with handle `h` by a dispatch of `(ty, pay)`;
`dispatched ty pay` records entry into `Dispatcher::dispatch`;
`registered h` records a handle assignment by `addListener`. -/
inductive Event where
  | invoke (h ty pay : Nat)
  | dispatched (ty pay : Nat)
  | registered (h : Nat)
  deriving DecidableEq, Repr

/-- The pending interpreter work items, one per interpreter phase of the
C++ code: running a command list, a single command, a `dispatch` call, the
snapshot-iteration loop of `dispatch`, a single stored callback, and the
drain loop of `process` (`i` is the position the range-`for` over the
`std::list` has reached; the list is cleared once the end is reached). -/
inductive Job where
  | prog (p : List Cmd)
  | cmd (c : Cmd)
  | disp (ty pay : Nat)
  | entries (es : List ListenerEntry) (ty pay : Nat)
  | cb (h : Nat) (c : Callback) (ty pay : Nat)
  | procLoop (i : Nat)

/-- The fuel-indexed interpreter.  Structurally recursive on `fuel`
(every recursive call decreases it), so it returns `none` exactly when
the fuel runs out; a `some` result is a completed run of the modelled
C++ code together with its event trace. -/
def run : Nat → Dispatcher → Job → Option (Dispatcher × List Event)
  | 0, _, _ => none
  | _ + 1, d, .prog [] => some (d, [])
  | f + 1, d, .prog (c :: cs) =>
    match run f d (.cmd c) with
    | none => none
    | some (d1, t1) =>
      match run f d1 (.prog cs) with
      | none => none
      | some (d2, t2) => some (d2, t1 ++ t2)
  | _ + 1, d, .cmd (.listen ty p body) =>
    some ((listenFn d ty p body).1, [.registered d.nextListenerId])
  | _ + 1, d, .cmd (.listenOnce ty p body) =>
    some ((listenOnceFn d ty p body).1, [.registered d.nextListenerId])
  | f + 1, d, .cmd (.dispatch ty pay) => run f d (.disp ty pay)
  | _ + 1, d, .cmd (.queue ty pay) => some (queueFn d ty pay, [])
  | f + 1, d, .cmd .process => run f d (.procLoop 0)
  | _ + 1, d, .cmd (.remove h) => some (removeFn d h, [])
  | f + 1, d, .disp ty pay =>
    match run f d (.entries ((lookupBucket d ty).getD []) ty pay) with
    | none => none
    | some (d1, t1) => some (d1, .dispatched ty pay :: t1)
  | _ + 1, d, .entries [] _ _ => some (d, [])
  | f + 1, d, .entries (e :: es) ty pay =>
    if e.handle ∈ d.listenersScheduledForRemoval then
      run f d (.entries es ty pay)
    else
      match run f d (.cb e.handle e.callback ty pay) with
      | none => none
      | some (d1, t1) =>
        match run f d1 (.entries es ty pay) with
        | none => none
        | some (d2, t2) => some (d2, t1 ++ t2)
  | f + 1, d, .cb h (.plain body) ty pay =>
    match run f d (.prog body) with
    | none => none
    | some (d1, t1) => some (d1, .invoke h ty pay :: t1)
  | f + 1, d, .cb h (.onceWrap lid body) ty pay =>
    let dIns :=
      { d with listenersScheduledForRemoval :=
          pendingInsert d.listenersScheduledForRemoval lid }
    match run f dIns (.prog body) with
    | none => none
    | some (d1, t1) =>
      let dEr :=
        { d1 with listenersScheduledForRemoval :=
            pendingErase d1.listenersScheduledForRemoval lid }
      some (removeFn dEr lid, .invoke h ty pay :: t1)
  | f + 1, d, .procLoop i =>
    match d.queuedDispatches[i]? with
    | none => some ({ d with queuedDispatches := [] }, [])
    | some (ty, pay) =>
      match run f d (.disp ty pay) with
      | none => none
      | some (d1, t1) =>
        match run f d1 (.procLoop (i + 1)) with
        | none => none
        | some (d2, t2) => some (d2, t1 ++ t2)

/-- Running a command list. -/
def runProg (fuel : Nat) (d : Dispatcher) (p : List Cmd) :
    Option (Dispatcher × List Event) :=
  run fuel d (.prog p)

/-- Running a single `dispatch(msg)` call. -/
def runDispatch (fuel : Nat) (d : Dispatcher) (ty pay : Nat) :
    Option (Dispatcher × List Event) :=
  run fuel d (.disp ty pay)

/-- Running a single `process()` call. -/
def runProcess (fuel : Nat) (d : Dispatcher) :
    Option (Dispatcher × List Event) :=
  run fuel d (.procLoop 0)

/-- All handles currently stored in the registry, bucket by bucket. -/
def allHandles (d : Dispatcher) : List Nat :=
  (d.listenersByType.map (fun p => p.2.map (·.handle))).flatten

/-- The order in which one `dispatch` pass invokes listeners: the
snapshot (the bucket at call time) filtered by the pending-removal
check, projected to handles (tinyevents.hpp, `dispatch`). -/
def dispatchOrder (d : Dispatcher) (ty : Nat) : List Nat :=
  (((lookupBucket d ty).getD []).filter
      (fun e => e.handle ∉ d.listenersScheduledForRemoval)).map (·.handle)

/-- Number of `invoke` events for handle `h` in a trace. -/
def countInvoke (h : Nat) (tr : List Event) : Nat :=
  tr.countP (fun ev => match ev with | .invoke h2 _ _ => h2 = h | _ => false)

/-- The `(type, payload)` arguments of the `dispatch` calls recorded in a
trace, in order. -/
def dispatchedEvents (tr : List Event) : List (Nat × Nat) :=
  tr.filterMap (fun ev => match ev with | .dispatched ty pay => some (ty, pay) | _ => none)

end Tinyevents

namespace Tinyevents

/-! ## Basic lemmas about the pure operations -/

theorem not_mem_allHandles (d : Dispatcher) (h : Nat) :
    h ∉ allHandles d ↔ ∀ p ∈ d.listenersByType, ∀ e ∈ p.2, e.handle ≠ h := by
  simp only [allHandles, List.mem_flatten, List.mem_map, not_exists, not_and]
  constructor
  · intro hall p hp e he heq
    exact hall (p.2.map (·.handle)) ⟨p, hp, rfl⟩ (heq ▸ List.mem_map_of_mem _ he)
  · rintro hall l ⟨p, hp, rfl⟩ hmem
    rcases List.mem_map.mp hmem with ⟨e, he, heq⟩
    exact hall p hp e he heq

theorem filter_eq_self_of (p : α → Bool) (l : List α) (h : ∀ a ∈ l, p a = true) :
    l.filter p = l := by
  induction l with
  | nil => rfl
  | cons x xs ih =>
    rw [List.filter_cons, if_pos (h x (List.mem_cons_self x xs))]
    rw [ih (fun a ha => h a (List.mem_cons_of_mem x ha))]

theorem map_eq_self_of (f : α → α) (l : List α) (h : ∀ a ∈ l, f a = a) :
    l.map f = l := by
  induction l with
  | nil => rfl
  | cons x xs ih =>
    rw [List.map_cons, h x (List.mem_cons_self x xs),
      ih (fun a ha => h a (List.mem_cons_of_mem x ha))]

theorem removeFn_eq_self (d : Dispatcher) (h : Nat) (hnm : h ∉ allHandles d) :
    removeFn d h = d := by
  rw [removeFn]
  split
  · rfl
  · have hh := (not_mem_allHandles d h).mp hnm
    have hmap : d.listenersByType.map
        (fun p => (p.1, p.2.filter (fun e => e.handle ≠ h))) = d.listenersByType := by
      apply map_eq_self_of
      intro p hp
      have hfil : p.2.filter (fun e => decide (e.handle ≠ h)) = p.2 := by
        apply filter_eq_self_of
        intro e he
        simpa using hh p hp e he
      simp only [hfil]
    rw [hmap]

theorem removeFn_not_mem (d : Dispatcher) (h : Nat)
    (hp : h ∉ d.listenersScheduledForRemoval) :
    h ∉ allHandles (removeFn d h) := by
  rw [removeFn, if_neg hp, not_mem_allHandles]
  intro p hp2 e he
  simp only [List.mem_map] at hp2
  rcases hp2 with ⟨q, _, rfl⟩
  simp only [List.mem_filter, decide_eq_true_eq] at he
  exact he.2

theorem removeFn_pending (d : Dispatcher) (h : Nat) :
    (removeFn d h).listenersScheduledForRemoval = d.listenersScheduledForRemoval := by
  rw [removeFn]; split <;> rfl

theorem hasListenerFn_false_of_not_mem (d : Dispatcher) (h : Nat)
    (hnm : h ∉ allHandles d) : hasListenerFn d h = false := by
  rw [hasListenerFn]
  split
  · rfl
  · have hh := (not_mem_allHandles d h).mp hnm
    rw [List.any_eq_false]
    intro p hp hany
    rcases List.any_eq_true.mp hany with ⟨e, he, hbeq⟩
    exact hh p hp e he (by simpa using hbeq)

theorem hasListenerFn_removeFn (d : Dispatcher) (h : Nat) :
    hasListenerFn (removeFn d h) h = false := by
  by_cases hp : h ∈ d.listenersScheduledForRemoval
  · rw [removeFn, if_pos hp, hasListenerFn, if_pos hp]
  · exact hasListenerFn_false_of_not_mem _ _ (removeFn_not_mem d h hp)

theorem removeFn_idem (d : Dispatcher) (h : Nat) :
    removeFn (removeFn d h) h = removeFn d h := by
  by_cases hp : h ∈ d.listenersScheduledForRemoval
  · have h1 : removeFn d h = d := by rw [removeFn, if_pos hp]
    simp only [h1]
  · apply removeFn_eq_self
    exact removeFn_not_mem d h hp

/-! ## The Subscription Token (tinyevents.hpp, class `Token`)

The Token's back-reference to its Dispatcher is modelled by passing the
dispatcher state explicitly to each Token operation. -/

/-- `Token`: stored handle plus the `holdsResource` ownership flag. -/
structure Token where
  handle : Nat
  holdsResource : Bool

/-- `Token::Token(dispatcher, handle)`: acquire ownership. -/
def mkToken (h : Nat) : Token := ⟨h, true⟩

/-- `Token::~Token()`: if still owning, call `remove(handle)` on the
referenced dispatcher. -/
def tokenDtor (t : Token) (d : Dispatcher) : Dispatcher :=
  if t.holdsResource then removeFn d t.handle else d

/-- `Token::Token(Token&&)`: the new token copies handle and flag, the
source is left non-owning.  Returns `(destination, moved-from source)`. -/
def tokenMoveCtor (other : Token) : Token × Token :=
  (⟨other.handle, other.holdsResource⟩, ⟨other.handle, false⟩)

/-- `Token::remove()`: unconditionally calls `remove(handle)` on the
dispatcher (no `holdsResource` check), then clears the flag. -/
def tokenRemove (t : Token) (d : Dispatcher) : Dispatcher × Token :=
  (removeFn d t.handle, ⟨t.handle, false⟩)

end Tinyevents

namespace Tinyevents

/-- Claim C6: no public operation fails.  `dispatch` on a type with zero
subscribers returns normally with the state unchanged; `remove` on an
unknown handle is a no-op leaving the state unchanged; `remove` twice is
safe, the second call changing nothing; `hasListener` on an unknown
handle returns `false`. -/
theorem claim_C6 (d : Dispatcher) (h ty pay fuel : Nat) :
    ((lookupBucket d ty).getD [] = [] →
      run (fuel + 2) d (.disp ty pay) = some (d, [.dispatched ty pay])) ∧
    (h ∉ allHandles d → removeFn d h = d) ∧
    removeFn (removeFn d h) h = removeFn d h ∧
    (h ∉ allHandles d → hasListenerFn d h = false) := by
  refine ⟨?_, removeFn_eq_self d h, removeFn_idem d h,
    hasListenerFn_false_of_not_mem d h⟩
  intro hb
  rw [show fuel + 2 = (fuel + 1) + 1 from rfl, run, hb, run]

/-- Witness for C6 at the empty dispatcher and handle 5. -/
theorem claim_C6_witness :
    run (0 + 2) emptyD (.disp 0 0) = some (emptyD, [.dispatched 0 0]) ∧
    removeFn emptyD 5 = emptyD ∧ hasListenerFn emptyD 5 = false := by
  have hc := claim_C6 emptyD 5 0 0 0
  exact ⟨hc.1 rfl, hc.2.1 (by decide), hc.2.2.2 (by decide)⟩

/-- Claim C7: a Token destroyed while still owning removes its handle,
so `hasListener` of that handle is `false` afterwards; moving a Token
transfers the handle and flag to the destination, the moved-from source
owns nothing, and destroying the moved-from source leaves the
dispatcher untouched. -/
theorem claim_C7 (d : Dispatcher) (t : Token) :
    (t.holdsResource = true → hasListenerFn (tokenDtor t d) t.handle = false) ∧
    (tokenMoveCtor t).1.handle = t.handle ∧
    (tokenMoveCtor t).1.holdsResource = t.holdsResource ∧
    (tokenMoveCtor t).2.holdsResource = false ∧
    tokenDtor (tokenMoveCtor t).2 d = d := by
  refine ⟨?_, rfl, rfl, rfl, rfl⟩
  intro hold
  rw [tokenDtor, if_pos hold]
  exact hasListenerFn_removeFn d t.handle

/-- Witness for C7 at the empty dispatcher and a fresh owning token. -/
theorem claim_C7_witness :
    hasListenerFn (tokenDtor (mkToken 3) emptyD) (mkToken 3).handle = false ∧
    tokenDtor (tokenMoveCtor (mkToken 3)).2 emptyD = emptyD := by
  have hc := claim_C7 emptyD (mkToken 3)
  exact ⟨hc.1 rfl, hc.2.2.2.2⟩

/-- Claim C9: `Token::remove()` does not check `holdsResource`: on a
non-owning token it still calls `Dispatcher::remove` on the stored
handle; in particular, `remove()` on a moved-from token unsubscribes the
handle now owned by the move target. -/
theorem claim_C9 (d : Dispatcher) (t : Token) :
    (t.holdsResource = false →
      (tokenRemove t d).1 = removeFn d t.handle ∧
      hasListenerFn (tokenRemove t d).1 t.handle = false) ∧
    hasListenerFn (tokenRemove (tokenMoveCtor t).2 d).1
      (tokenMoveCtor t).1.handle = false := by
  refine ⟨fun _ => ⟨rfl, hasListenerFn_removeFn d t.handle⟩, ?_⟩
  exact hasListenerFn_removeFn d t.handle

/-- Witness for C9 at the empty dispatcher and a non-owning token. -/
theorem claim_C9_witness :
    (tokenRemove ⟨7, false⟩ emptyD).1 = removeFn emptyD 7 ∧
    hasListenerFn (tokenRemove (⟨7, false⟩ : Token) emptyD).1 7 = false := by
  have hc := claim_C9 emptyD ⟨7, false⟩
  exact hc.1 rfl

end Tinyevents

namespace Tinyevents

/-! ## Claim C8: handle allocation -/

/-- The dispatcher after `n` consecutive `listen` calls on a fresh
dispatcher. -/
def afterN : Nat → Dispatcher
  | 0 => emptyD
  | n + 1 => (listenFn (afterN n) 0 0 []).1

/-- The handle returned by subscribe call number `n` (0-indexed) on a
fresh dispatcher: `addListener` returns the current `nextListenerId`. -/
def nthListenHandle (n : Nat) : Nat := (afterN n).nextListenerId

theorem one_lt_W : 1 < W := by
  rw [W]
  exact Nat.one_lt_two_pow (by norm_num)

theorem afterN_nextId (n : Nat) : (afterN n).nextListenerId = n % W := by
  induction n with
  | zero =>
    rw [afterN]
    exact (Nat.zero_mod W).symm
  | succ n ih =>
    show ((afterN n).nextListenerId + 1) % W = (n + 1) % W
    rw [ih, Nat.add_mod n 1 W, Nat.mod_eq_of_lt one_lt_W]

/-- A subscription-level operation: a `listen`/`listenOnce` call (with
its type, priority and body) or a `remove` call. -/
inductive SubOp where
  | sub (ty : Nat) (priority : Int) (once : Bool) (body : List Cmd)
  | rem (h : Nat)

/-- Apply one subscription-level operation to the dispatcher state. -/
def applyOp (d : Dispatcher) : SubOp → Dispatcher
  | .sub ty p o b => if o then (listenOnceFn d ty p b).1 else (listenFn d ty p b).1
  | .rem h => removeFn d h

/-- The handles returned by the subscribe calls of an operation
sequence, in call order. -/
def handlesOf (d : Dispatcher) : List SubOp → List Nat
  | [] => []
  | op :: ops =>
    match op with
    | .sub .. => d.nextListenerId :: handlesOf (applyOp d op) ops
    | .rem _ => handlesOf (applyOp d op) ops

theorem applyOp_sub_nextId (d : Dispatcher) (ty : Nat) (p : Int) (o : Bool)
    (b : List Cmd) :
    (applyOp d (.sub ty p o b)).nextListenerId = (d.nextListenerId + 1) % W := by
  rw [applyOp]
  split <;> rfl

theorem applyOp_rem_nextId (d : Dispatcher) (h : Nat) :
    (applyOp d (.rem h)).nextListenerId = d.nextListenerId := by
  rw [applyOp, removeFn]
  split <;> rfl

theorem handlesOf_bounds :
    ∀ (ops : List SubOp) (d : Dispatcher), d.nextListenerId + ops.length ≤ W →
      ((∀ x ∈ handlesOf d ops, d.nextListenerId ≤ x ∧ x < W) ∧
        (handlesOf d ops).Pairwise (· < ·)) := by
  intro ops
  induction ops with
  | nil =>
    intro d _
    refine ⟨?_, List.Pairwise.nil⟩
    intro x hx
    simp [handlesOf] at hx
  | cons op rest ih =>
    intro d hb
    rcases op with ⟨ty, p, o, b⟩ | h
    · rcases rest with _ | ⟨r, rs⟩
      · refine ⟨?_, List.pairwise_singleton _ _⟩
        intro x hx
        rcases List.mem_cons.mp hx with hx | hx
        · subst hx
          refine ⟨Nat.le_refl _, ?_⟩
          simp only [List.length_cons, List.length_nil] at hb
          omega
        · simp [handlesOf] at hx
      · have hlt : d.nextListenerId + 1 < W := by
          simp only [List.length_cons] at hb
          omega
        have hid : (applyOp d (.sub ty p o b)).nextListenerId =
            d.nextListenerId + 1 := by
          rw [applyOp_sub_nextId, Nat.mod_eq_of_lt hlt]
        have hb2 : (applyOp d (.sub ty p o b)).nextListenerId +
            (r :: rs).length ≤ W := by
          rw [hid]
          simp only [List.length_cons] at hb ⊢
          omega
        obtain ⟨hge, hpw⟩ := ih (applyOp d (.sub ty p o b)) hb2
        constructor
        · intro x hx
          rcases List.mem_cons.mp hx with hx | hx
          · subst hx
            exact ⟨Nat.le_refl _, by omega⟩
          · have := hge x hx
            rw [hid] at this
            exact ⟨by omega, this.2⟩
        · refine List.Pairwise.cons ?_ hpw
          intro x hx
          have := (hge x hx).1
          rw [hid] at this
          omega
    · have hb2 : (applyOp d (.rem h)).nextListenerId + rest.length ≤ W := by
        rw [applyOp_rem_nextId]
        simp only [List.length_cons] at hb
        omega
      obtain ⟨hge, hpw⟩ := ih (applyOp d (.rem h)) hb2
      refine ⟨?_, hpw⟩
      intro x hx
      have := hge x hx
      rw [applyOp_rem_nextId] at this
      exact ⟨this.1, this.2⟩

/-- Claim C8, amended: for every sequence of at most `2^64` interleaved
subscribe (`listen`/`listenOnce`, any types, priorities and callbacks)
and `remove` operations on a fresh dispatcher, the handles returned by
the subscribe calls are strictly increasing values below `2^64`,
pairwise distinct, and never reused even after their listeners are
removed.  (The unamended claim fails once the 64-bit counter wraps; see
the counterexample.) -/
theorem claim_C8 (ops : List SubOp) (hlen : ops.length ≤ 2 ^ 64) :
    (handlesOf emptyD ops).Pairwise (· < ·) ∧
    (handlesOf emptyD ops).Nodup ∧
    ∀ x ∈ handlesOf emptyD ops, x < 2 ^ 64 := by
  have hb : emptyD.nextListenerId + ops.length ≤ W := by
    show 0 + ops.length ≤ 2 ^ 64
    omega
  obtain ⟨hge, hpw⟩ := handlesOf_bounds ops emptyD hb
  exact ⟨hpw, hpw.imp (fun hlt => Nat.ne_of_lt hlt),
    fun x hx => (hge x hx).2⟩

/-- Witness for C8 on `listen`, `listenOnce`, `remove 0`, `listen`. -/
theorem claim_C8_witness :
    handlesOf emptyD [.sub 0 0 false [], .sub 1 2 true [], .rem 0,
      .sub 0 0 false []] = [0, 1, 2] ∧
    ([0, 1, 2] : List Nat).Pairwise (· < ·) ∧
    ([0, 1, 2] : List Nat).Nodup := by
  have hc := claim_C8 [.sub 0 0 false [], .sub 1 2 true [], .rem 0,
    .sub 0 0 false []] (by norm_num)
  have he : handlesOf emptyD [.sub 0 0 false [], .sub 1 2 true [], .rem 0,
      .sub 0 0 false []] = [0, 1, 2] := by decide
  exact ⟨he, he ▸ hc.1, he ▸ hc.2.1⟩

/-- Counterexample to C8 as stated: after `2^64` subscribe calls the
64-bit counter has wrapped, and subscribe call number `2^64` returns the
same handle (0) as subscribe call number 0 — the handles of one
dispatcher lifetime are not pairwise distinct without a bound on the
number of calls. -/
theorem claim_C8_counterexample :
    nthListenHandle (2 ^ 64) = nthListenHandle 0 ∧
    nthListenHandle (2 ^ 64) = 0 ∧ (2 ^ 64 : Nat) ≠ 0 := by
  have h1 : nthListenHandle (2 ^ 64) = 0 := by
    rw [nthListenHandle, afterN_nextId, W, Nat.mod_self]
  have h0 : nthListenHandle 0 = 0 := rfl
  exact ⟨h1.trans h0.symm, h1, by positivity⟩

end Tinyevents

namespace Tinyevents

/-! ## Claim C1: priority ordering of dispatch -/

/-- The strict order maintained inside a bucket: strictly greater
priority, or equal priority and strictly smaller (i.e. earlier) handle. -/
def entryRel (a b : ListenerEntry) : Prop :=
  b.priority < a.priority ∨ (a.priority = b.priority ∧ a.handle < b.handle)

theorem entryRel_le {a b : ListenerEntry} (h : entryRel a b) :
    b.priority ≤ a.priority := by
  rcases h with h | ⟨h, _⟩
  · exact le_of_lt h
  · exact le_of_eq h.symm

theorem insertEntry_mem (e x : ListenerEntry) (l : List ListenerEntry) :
    x ∈ insertEntry e l ↔ x = e ∨ x ∈ l := by
  induction l with
  | nil => simp [insertEntry]
  | cons y ys ih =>
    rw [insertEntry]
    split
    · simp
    · simp only [List.mem_cons, ih]
      tauto

theorem insertEntry_pairwise (e : ListenerEntry) (l : List ListenerEntry)
    (hpw : l.Pairwise entryRel) (hh : ∀ x ∈ l, x.handle < e.handle) :
    (insertEntry e l).Pairwise entryRel := by
  induction l with
  | nil => exact List.pairwise_singleton _ _
  | cons y ys ih =>
    rw [insertEntry]
    rcases List.pairwise_cons.mp hpw with ⟨hy, hys⟩
    split
    · rename_i hlt
      refine List.Pairwise.cons ?_ hpw
      intro z hz
      rcases List.mem_cons.mp hz with rfl | hz
      · exact Or.inl hlt
      · exact Or.inl (lt_of_le_of_lt (entryRel_le (hy z hz)) hlt)
    · rename_i hnlt
      refine List.Pairwise.cons ?_ (ih hys (fun x hx => hh x (List.mem_cons_of_mem y hx)))
      intro z hz
      rcases (insertEntry_mem e z ys).mp hz with rfl | hz
      · rcases lt_or_eq_of_le (not_lt.mp hnlt) with hlt | heq
        · exact Or.inl hlt
        · exact Or.inr ⟨heq.symm, hh y (List.mem_cons_self y ys)⟩
      · exact hy z hz

theorem find_setBucket (bs : List (Nat × List ListenerEntry)) (ty : Nat)
    (l : List ListenerEntry) (ty2 : Nat) :
    (setBucket bs ty l).find? (fun p => p.1 == ty2) =
      if ty2 = ty then some (ty, l) else bs.find? (fun p => p.1 == ty2) := by
  induction bs with
  | nil =>
    rw [setBucket]
    by_cases h : ty2 = ty
    · subst h
      rw [if_pos rfl, List.find?_cons_of_pos _ (by simp)]
    · rw [if_neg h, List.find?_cons_of_neg _ (by simpa using Ne.symm h),
        List.find?_nil]
  | cons kv rest ih =>
    obtain ⟨k, v⟩ := kv
    rw [setBucket]
    by_cases hk : k = ty
    · subst hk
      rw [if_pos rfl]
      by_cases h : ty2 = k
      · subst h
        rw [if_pos rfl, List.find?_cons_of_pos _ (by simp)]
      · rw [if_neg h, List.find?_cons_of_neg _ (by simpa using Ne.symm h),
          List.find?_cons_of_neg _ (by simpa using Ne.symm h)]
    · rw [if_neg hk]
      by_cases h : ty2 = k
      · subst h
        rw [List.find?_cons_of_pos _ (by simp), if_neg hk,
          List.find?_cons_of_pos _ (by simp)]
      · rw [List.find?_cons_of_neg _ (by simpa using Ne.symm h), ih]
        by_cases h2 : ty2 = ty
        · rw [if_pos h2, if_pos h2]
        · rw [if_neg h2, if_neg h2,
            List.find?_cons_of_neg _ (by simpa using Ne.symm h)]

/-- The bucket used by `dispatch`/`addListener` for tag `ty` (empty when
absent). -/
def bucketOf (d : Dispatcher) (ty : Nat) : List ListenerEntry :=
  (lookupBucket d ty).getD []

theorem bucketOf_addListener (d : Dispatcher) (ty : Nat) (p : Int)
    (cb : Callback) (ty2 : Nat) :
    bucketOf (addListener d ty p cb).1 ty2 =
      if ty2 = ty
      then insertEntry ⟨d.nextListenerId, p, cb⟩ (bucketOf d ty)
      else bucketOf d ty2 := by
  have hlist : (addListener d ty p cb).1.listenersByType =
      setBucket d.listenersByType ty
        (insertEntry ⟨d.nextListenerId, p, cb⟩ (bucketOf d ty)) := rfl
  rw [bucketOf, lookupBucket, hlist, find_setBucket]
  by_cases h : ty2 = ty
  · rw [if_pos h, if_pos h]
    rfl
  · rw [if_neg h, if_neg h]
    rfl

theorem pending_addListener (d : Dispatcher) (ty : Nat) (p : Int) (cb : Callback) :
    (addListener d ty p cb).1.listenersScheduledForRemoval =
      d.listenersScheduledForRemoval := rfl

theorem nextId_addListener (d : Dispatcher) (ty : Nat) (p : Int) (cb : Callback) :
    (addListener d ty p cb).1.nextListenerId = (d.nextListenerId + 1) % W := rfl

/-- A subscription request: message type, priority, `listen` vs
`listenOnce`, and the user callback body. -/
structure Reg where
  ty : Nat
  prio : Int
  once : Bool
  body : List Cmd

/-- The stored callback a request produces (`addListener` receives the
plain wrapper from `listen`, the once-wrapper from `listenOnce`). -/
def cbOf (r : Reg) (n : Nat) : Callback :=
  if r.once then .onceWrap n r.body else .plain r.body

/-- Apply one subscription request. -/
def applyReg (d : Dispatcher) (r : Reg) : Dispatcher :=
  if r.once then (listenOnceFn d r.ty r.prio r.body).1 else (listenFn d r.ty r.prio r.body).1

theorem applyReg_eq (d : Dispatcher) (r : Reg) :
    applyReg d r = (addListener d r.ty r.prio (cbOf r d.nextListenerId)).1 := by
  rw [applyReg, cbOf]
  split <;> rfl

/-- The dispatcher obtained by performing the requests in order. -/
def buildFrom (d : Dispatcher) (regs : List Reg) : Dispatcher :=
  regs.foldl applyReg d

/-- The dispatcher obtained by performing the requests on a fresh
dispatcher. -/
def buildD (regs : List Reg) : Dispatcher := buildFrom emptyD regs

/-- All buckets are `entryRel`-sorted. -/
def PW (d : Dispatcher) : Prop := ∀ ty, (bucketOf d ty).Pairwise entryRel

/-- All stored handles are below the counter. -/
def HB (d : Dispatcher) : Prop :=
  ∀ ty, ∀ e ∈ bucketOf d ty, e.handle < d.nextListenerId

theorem build_pairwise :
    ∀ (regs : List Reg) (d : Dispatcher), PW d → HB d →
      d.nextListenerId + regs.length ≤ W → PW (buildFrom d regs) := by
  intro regs
  induction regs with
  | nil => intro d hpw _ _; exact hpw
  | cons r rest ih =>
    intro d hpw hhb hlen
    rw [buildFrom, List.foldl_cons, applyReg_eq]
    have hpw1 : PW (addListener d r.ty r.prio (cbOf r d.nextListenerId)).1 := by
      intro ty
      rw [bucketOf_addListener]
      split
      · exact insertEntry_pairwise _ _ (hpw r.ty) (hhb r.ty)
      · exact hpw ty
    rcases rest with _ | ⟨r2, rs⟩
    · exact hpw1
    · have hlt : d.nextListenerId + 1 < W := by
        simp only [List.length_cons] at hlen
        omega
      have hhb1 : HB (addListener d r.ty r.prio (cbOf r d.nextListenerId)).1 := by
        intro ty e he
        rw [nextId_addListener, Nat.mod_eq_of_lt hlt]
        rw [bucketOf_addListener] at he
        rcases em (ty = r.ty) with hty | hty
        · rw [if_pos hty] at he
          rcases (insertEntry_mem _ _ _).mp he with rfl | he
          · exact Nat.lt_succ_self _
          · exact Nat.lt_succ_of_lt (hhb r.ty e he)
        · rw [if_neg hty] at he
          exact Nat.lt_succ_of_lt (hhb ty e he)
      apply ih _ hpw1 hhb1
      rw [nextId_addListener, Nat.mod_eq_of_lt hlt]
      simp only [List.length_cons] at hlen ⊢
      omega

theorem mem_bucket_applyReg (d : Dispatcher) (r : Reg) (ty : Nat)
    (e : ListenerEntry) (he : e ∈ bucketOf d ty) :
    e ∈ bucketOf (applyReg d r) ty := by
  rw [applyReg_eq, bucketOf_addListener]
  split
  · rename_i hty
    subst hty
    exact (insertEntry_mem _ _ _).mpr (Or.inr he)
  · exact he

theorem mem_bucket_buildFrom :
    ∀ (regs : List Reg) (d : Dispatcher) (ty : Nat) (e : ListenerEntry),
      e ∈ bucketOf d ty → e ∈ bucketOf (buildFrom d regs) ty := by
  intro regs
  induction regs with
  | nil => intro d ty e he; exact he
  | cons r rest ih =>
    intro d ty e he
    rw [buildFrom, List.foldl_cons]
    exact ih _ _ _ (mem_bucket_applyReg d r ty e he)

theorem build_mem :
    ∀ (regs : List Reg) (d : Dispatcher) (k : Nat) (hk : k < regs.length),
      d.nextListenerId + regs.length ≤ W →
      ∃ cb, (⟨d.nextListenerId + k, regs[k].prio, cb⟩ : ListenerEntry) ∈
        bucketOf (buildFrom d regs) regs[k].ty := by
  intro regs
  induction regs with
  | nil => intro d k hk; cases (Nat.not_lt_zero k) hk
  | cons r rest ih =>
    intro d k hk hlen
    rw [buildFrom, List.foldl_cons]
    rcases k with _ | k
    · refine ⟨cbOf r d.nextListenerId, ?_⟩
      simp only [List.getElem_cons_zero, Nat.add_zero]
      apply mem_bucket_buildFrom
      rw [applyReg_eq, bucketOf_addListener, if_pos rfl]
      exact (insertEntry_mem _ _ _).mpr (Or.inl rfl)
    · have hk2 : k < rest.length := by
        simpa using Nat.lt_of_succ_lt_succ hk
      have hlt : d.nextListenerId + 1 < W := by
        simp only [List.length_cons] at hlen
        omega
      have hid : (applyReg d r).nextListenerId = d.nextListenerId + 1 := by
        rw [applyReg_eq, nextId_addListener, Nat.mod_eq_of_lt hlt]
      have hlen2 : (applyReg d r).nextListenerId + rest.length ≤ W := by
        rw [hid]
        simp only [List.length_cons] at hlen
        omega
      obtain ⟨cb, hcb⟩ := ih (applyReg d r) k hk2 hlen2
      refine ⟨cb, ?_⟩
      rw [hid] at hcb
      simp only [List.getElem_cons_succ]
      have harith : d.nextListenerId + 1 + k = d.nextListenerId + (k + 1) := by omega
      rw [harith] at hcb
      exact hcb

theorem build_pending :
    ∀ (regs : List Reg) (d : Dispatcher),
      (buildFrom d regs).listenersScheduledForRemoval =
        d.listenersScheduledForRemoval := by
  intro regs
  induction regs with
  | nil => intro d; rfl
  | cons r rest ih =>
    intro d
    rw [buildFrom, List.foldl_cons]
    rw [show List.foldl applyReg (applyReg d r) rest = buildFrom (applyReg d r) rest from rfl]
    rw [ih, applyReg_eq, pending_addListener]

/-- `a` occurs strictly before `b` in the list `l`. -/
def Before (l : List Nat) (a b : Nat) : Prop :=
  ∃ (i j : Nat), ∃ (hi : i < l.length) (hj : j < l.length),
    i < j ∧ l[i] = a ∧ l[j] = b

end Tinyevents

namespace Tinyevents

/-- Claim C1: for listeners L1 and L2 registered on the same message
type with priorities p1 > p2, a dispatch pass invokes L1 before L2, and
listeners with equal priority are invoked in registration order —
because `listen` inserts before the first entry of strictly smaller
priority.  Stated for every sequence of at most `2^64` subscription
requests performed on a fresh dispatcher: the handle of request `k` is
`k`, and `dispatchOrder` (the snapshot iteration order of `dispatch`)
places handle `i` before handle `j` whenever request `i` has strictly
greater priority, or equal priority and an earlier position. -/
theorem claim_C1 (regs : List Reg) (i j : Nat) (hi : i < regs.length)
    (hj : j < regs.length) (hlen : regs.length ≤ 2 ^ 64)
    (hty : regs[i].ty = regs[j].ty)
    (hord : regs[j].prio < regs[i].prio ∨
      (regs[i].prio = regs[j].prio ∧ i < j)) :
    Before (dispatchOrder (buildD regs) regs[i].ty) i j := by
  have hlenW : emptyD.nextListenerId + regs.length ≤ W := by
    show 0 + regs.length ≤ 2 ^ 64
    omega
  obtain ⟨cbi, hmi⟩ := build_mem regs emptyD i hi hlenW
  obtain ⟨cbj, hmj⟩ := build_mem regs emptyD j hj hlenW
  simp only [show emptyD.nextListenerId = 0 from rfl, Nat.zero_add] at hmi hmj
  have hbd : buildFrom emptyD regs = buildD regs := rfl
  rw [hbd] at hmi hmj
  rw [← hty] at hmj
  have hpw : PW (buildD regs) := by
    apply build_pairwise regs emptyD
    · intro ty
      rw [show bucketOf emptyD ty = [] from rfl]
      exact List.Pairwise.nil
    · intro ty e he
      rw [show bucketOf emptyD ty = [] from rfl] at he
      cases he
    · exact hlenW
  have hpend : (buildD regs).listenersScheduledForRemoval = [] := by
    rw [buildD, build_pending]
    rfl
  have hdo : dispatchOrder (buildD regs) regs[i].ty =
      (bucketOf (buildD regs) regs[i].ty).map (·.handle) := by
    rw [dispatchOrder, hpend]
    rw [show ((lookupBucket (buildD regs) regs[i].ty).getD []) =
      bucketOf (buildD regs) regs[i].ty from rfl]
    rw [filter_eq_self_of _ _ (fun a _ => by simp)]
  obtain ⟨pi, hpi, hei⟩ := List.mem_iff_getElem.mp hmi
  obtain ⟨pj, hpj, hej⟩ := List.mem_iff_getElem.mp hmj
  have hR := List.pairwise_iff_getElem.mp (hpw regs[i].ty)
  rcases Nat.lt_trichotomy pi pj with hplt | heq | hgt
  · rw [hdo]
    refine ⟨pi, pj, ?_, ?_, hplt, ?_, ?_⟩
    · simpa using hpi
    · simpa using hpj
    · rw [List.getElem_map, hei]
    · rw [List.getElem_map, hej]
  · exfalso
    subst heq
    have hEij := hei.symm.trans hej
    simp only [ListenerEntry.mk.injEq] at hEij
    obtain ⟨h1, h2, _⟩ := hEij
    rcases hord with ho | ⟨ho1, ho2⟩ <;> omega
  · exfalso
    have hRel := hR pj pi hpj hpi hgt
    rw [hei, hej] at hRel
    simp only [entryRel] at hRel
    rcases hRel with hr | ⟨hr1, hr2⟩ <;> rcases hord with ho | ⟨ho1, ho2⟩ <;> omega

/-- Witness for C1: priorities 5 then 10 on type 0; the later, higher
priority listener (handle 1) is invoked before handle 0. -/
theorem claim_C1_witness :
    Before (dispatchOrder (buildD [⟨0, 5, false, []⟩, ⟨0, 10, false, []⟩]) 0) 1 0 ∧
    dispatchOrder (buildD [⟨0, 5, false, []⟩, ⟨0, 10, false, []⟩]) 0 = [1, 0] := by
  constructor
  · exact claim_C1 [⟨0, 5, false, []⟩, ⟨0, 10, false, []⟩] 1 0 (by norm_num)
      (by norm_num) (by norm_num) rfl (Or.inl (by norm_num))
  · decide

end Tinyevents

namespace Tinyevents

/-! ## Inversion lemmas for the interpreter -/

theorem run_zero (d : Dispatcher) (j : Job) : run 0 d j = none := rfl

theorem run_prog_nil_inv {f : Nat} {d d2 : Dispatcher} {tr : List Event}
    (h : run (f + 1) d (.prog []) = some (d2, tr)) : d2 = d ∧ tr = [] := by
  simp only [run, Option.some.injEq, Prod.mk.injEq] at h
  exact ⟨h.1.symm, h.2.symm⟩

theorem run_prog_cons_inv {f : Nat} {d : Dispatcher} {c : Cmd} {cs : List Cmd}
    {d2 : Dispatcher} {tr : List Event}
    (h : run (f + 1) d (.prog (c :: cs)) = some (d2, tr)) :
    ∃ d1 t1 t2, run f d (.cmd c) = some (d1, t1) ∧
      run f d1 (.prog cs) = some (d2, t2) ∧ tr = t1 ++ t2 := by
  simp only [run] at h
  rcases hr1 : run f d (.cmd c) with _ | ⟨d1, t1⟩
  · rw [hr1] at h; simp at h
  · rw [hr1] at h
    dsimp only at h
    rcases hr2 : run f d1 (.prog cs) with _ | ⟨d3, t2⟩
    · rw [hr2] at h; simp at h
    · rw [hr2] at h
      dsimp only at h
      simp only [Option.some.injEq, Prod.mk.injEq] at h
      obtain ⟨h1, h2⟩ := h
      exact ⟨d1, t1, t2, rfl, h1 ▸ hr2, h2.symm⟩

theorem run_cmd_listen_inv {f : Nat} {d d2 : Dispatcher} {tr : List Event}
    {ty : Nat} {p : Int} {b : List Cmd}
    (h : run (f + 1) d (.cmd (.listen ty p b)) = some (d2, tr)) :
    d2 = (listenFn d ty p b).1 ∧ tr = [.registered d.nextListenerId] := by
  simp only [run, Option.some.injEq, Prod.mk.injEq] at h
  exact ⟨h.1.symm, h.2.symm⟩

theorem run_cmd_listenOnce_inv {f : Nat} {d d2 : Dispatcher} {tr : List Event}
    {ty : Nat} {p : Int} {b : List Cmd}
    (h : run (f + 1) d (.cmd (.listenOnce ty p b)) = some (d2, tr)) :
    d2 = (listenOnceFn d ty p b).1 ∧ tr = [.registered d.nextListenerId] := by
  simp only [run, Option.some.injEq, Prod.mk.injEq] at h
  exact ⟨h.1.symm, h.2.symm⟩

theorem run_cmd_queue_inv {f : Nat} {d d2 : Dispatcher} {tr : List Event}
    {ty pay : Nat}
    (h : run (f + 1) d (.cmd (.queue ty pay)) = some (d2, tr)) :
    d2 = queueFn d ty pay ∧ tr = [] := by
  simp only [run, Option.some.injEq, Prod.mk.injEq] at h
  exact ⟨h.1.symm, h.2.symm⟩

theorem run_cmd_remove_inv {f : Nat} {d d2 : Dispatcher} {tr : List Event}
    {hd : Nat}
    (h : run (f + 1) d (.cmd (.remove hd)) = some (d2, tr)) :
    d2 = removeFn d hd ∧ tr = [] := by
  simp only [run, Option.some.injEq, Prod.mk.injEq] at h
  exact ⟨h.1.symm, h.2.symm⟩

theorem run_cmd_dispatch_eq (f : Nat) (d : Dispatcher) (ty pay : Nat) :
    run (f + 1) d (.cmd (.dispatch ty pay)) = run f d (.disp ty pay) := rfl

theorem run_cmd_process_eq (f : Nat) (d : Dispatcher) :
    run (f + 1) d (.cmd .process) = run f d (.procLoop 0) := rfl

theorem run_disp_inv {f : Nat} {d d2 : Dispatcher} {tr : List Event}
    {ty pay : Nat}
    (h : run (f + 1) d (.disp ty pay) = some (d2, tr)) :
    ∃ t1, run f d (.entries ((lookupBucket d ty).getD []) ty pay) = some (d2, t1) ∧
      tr = .dispatched ty pay :: t1 := by
  simp only [run] at h
  rcases hr1 : run f d (.entries ((lookupBucket d ty).getD []) ty pay) with _ | ⟨d1, t1⟩
  · rw [hr1] at h; simp at h
  · rw [hr1] at h
    dsimp only at h
    simp only [Option.some.injEq, Prod.mk.injEq] at h
    obtain ⟨h1, h2⟩ := h
    exact ⟨t1, by rw [h1], h2.symm⟩

theorem run_entries_nil_inv {f : Nat} {d d2 : Dispatcher} {tr : List Event}
    {ty pay : Nat}
    (h : run (f + 1) d (.entries [] ty pay) = some (d2, tr)) :
    d2 = d ∧ tr = [] := by
  simp only [run, Option.some.injEq, Prod.mk.injEq] at h
  exact ⟨h.1.symm, h.2.symm⟩

theorem run_entries_cons_skip {f : Nat} (d : Dispatcher) {e : ListenerEntry}
    (es : List ListenerEntry) (ty pay : Nat)
    (hmem : e.handle ∈ d.listenersScheduledForRemoval) :
    run (f + 1) d (.entries (e :: es) ty pay) = run f d (.entries es ty pay) := by
  simp only [run, if_pos hmem]

theorem run_entries_cons_inv {f : Nat} {d d2 : Dispatcher} {tr : List Event}
    {e : ListenerEntry} {es : List ListenerEntry} {ty pay : Nat}
    (hmem : e.handle ∉ d.listenersScheduledForRemoval)
    (h : run (f + 1) d (.entries (e :: es) ty pay) = some (d2, tr)) :
    ∃ d1 t1 t2, run f d (.cb e.handle e.callback ty pay) = some (d1, t1) ∧
      run f d1 (.entries es ty pay) = some (d2, t2) ∧ tr = t1 ++ t2 := by
  simp only [run, if_neg hmem] at h
  rcases hr1 : run f d (.cb e.handle e.callback ty pay) with _ | ⟨d1, t1⟩
  · rw [hr1] at h; simp at h
  · rw [hr1] at h
    dsimp only at h
    rcases hr2 : run f d1 (.entries es ty pay) with _ | ⟨d3, t2⟩
    · rw [hr2] at h; simp at h
    · rw [hr2] at h
      dsimp only at h
      simp only [Option.some.injEq, Prod.mk.injEq] at h
      obtain ⟨h1, h2⟩ := h
      exact ⟨d1, t1, t2, rfl, h1 ▸ hr2, h2.symm⟩

theorem run_cb_plain_inv {f : Nat} {d d2 : Dispatcher} {tr : List Event}
    {h0 : Nat} {body : List Cmd} {ty pay : Nat}
    (h : run (f + 1) d (.cb h0 (.plain body) ty pay) = some (d2, tr)) :
    ∃ t1, run f d (.prog body) = some (d2, t1) ∧
      tr = .invoke h0 ty pay :: t1 := by
  simp only [run] at h
  rcases hr1 : run f d (.prog body) with _ | ⟨d1, t1⟩
  · rw [hr1] at h; simp at h
  · rw [hr1] at h
    dsimp only at h
    simp only [Option.some.injEq, Prod.mk.injEq] at h
    obtain ⟨h1, h2⟩ := h
    exact ⟨t1, by rw [h1], h2.symm⟩

theorem run_cb_once_inv {f : Nat} {d d2 : Dispatcher} {tr : List Event}
    {h0 lid : Nat} {body : List Cmd} {ty pay : Nat}
    (h : run (f + 1) d (.cb h0 (.onceWrap lid body) ty pay) = some (d2, tr)) :
    ∃ d1 t1,
      run f ({ d with listenersScheduledForRemoval := pendingInsert d.listenersScheduledForRemoval lid }) (.prog body) =
        some (d1, t1) ∧
      d2 = removeFn ({ d1 with listenersScheduledForRemoval := pendingErase d1.listenersScheduledForRemoval lid }) lid ∧
      tr = .invoke h0 ty pay :: t1 := by
  simp only [run] at h
  rcases hr1 : run f ({ d with listenersScheduledForRemoval := pendingInsert d.listenersScheduledForRemoval lid }) (.prog body) with _ | ⟨d1, t1⟩
  · rw [hr1] at h; simp at h
  · rw [hr1] at h
    dsimp only at h
    simp only [Option.some.injEq, Prod.mk.injEq] at h
    exact ⟨d1, t1, rfl, h.1.symm, h.2.symm⟩

theorem run_procLoop_none_inv {f : Nat} {d d2 : Dispatcher} {tr : List Event}
    {i : Nat} (hq : d.queuedDispatches[i]? = none)
    (h : run (f + 1) d (.procLoop i) = some (d2, tr)) :
    d2 = { d with queuedDispatches := [] } ∧ tr = [] := by
  simp only [run, hq, Option.some.injEq, Prod.mk.injEq] at h
  exact ⟨h.1.symm, h.2.symm⟩

theorem run_procLoop_some_inv {f : Nat} {d d2 : Dispatcher} {tr : List Event}
    {i ty pay : Nat} (hq : d.queuedDispatches[i]? = some (ty, pay))
    (h : run (f + 1) d (.procLoop i) = some (d2, tr)) :
    ∃ d1 t1 t2, run f d (.disp ty pay) = some (d1, t1) ∧
      run f d1 (.procLoop (i + 1)) = some (d2, t2) ∧ tr = t1 ++ t2 := by
  simp only [run, hq] at h
  rcases hr1 : run f d (.disp ty pay) with _ | ⟨d1, t1⟩
  · rw [hr1] at h; simp at h
  · rw [hr1] at h
    dsimp only at h
    rcases hr2 : run f d1 (.procLoop (i + 1)) with _ | ⟨d3, t2⟩
    · rw [hr2] at h; simp at h
    · rw [hr2] at h
      dsimp only at h
      simp only [Option.some.injEq, Prod.mk.injEq] at h
      obtain ⟨h1, h2⟩ := h
      exact ⟨d1, t1, t2, rfl, h1 ▸ hr2, h2.symm⟩

end Tinyevents

namespace Tinyevents

/-! ## Pending-removal set preservation (claims C10 and C3)

The once-wrapper inserts its captured listener id into the
pending-removal set and erases it again before returning, so every
completed operation leaves the set exactly as it found it — provided
each stored `onceWrap` callback captured the id of its own entry, which
is how `listenOnce` builds them. -/

/-- Each `onceWrap` callback captured the handle of its own entry
(`listenOnce` reads `nextListenerId` right before `listen` assigns it). -/
def entryWFb (e : ListenerEntry) : Bool :=
  match e.callback with
  | .plain _ => true
  | .onceWrap lid _ => lid == e.handle

/-- Registry well-formedness: every stored entry satisfies `entryWFb`. -/
def WFonce (d : Dispatcher) : Prop :=
  ∀ p ∈ d.listenersByType, ∀ e ∈ p.2, entryWFb e = true

theorem bucketOf_eq_listenersByType (d : Dispatcher) (ty : Nat) :
    bucketOf d ty =
      ((d.listenersByType.find? (fun p => p.1 == ty)).map (fun p => p.2)).getD [] :=
  rfl

theorem mem_of_bucketOf {d : Dispatcher} {ty : Nat} {e : ListenerEntry}
    (he : e ∈ bucketOf d ty) : ∃ p ∈ d.listenersByType, e ∈ p.2 := by
  rw [bucketOf_eq_listenersByType] at he
  rcases hf : d.listenersByType.find? (fun p => p.1 == ty) with _ | p
  · rw [hf] at he
    simp at he
  · rw [hf] at he
    exact ⟨p, List.mem_of_find?_eq_some hf, he⟩

theorem WFonce_bucket {d : Dispatcher} (hwf : WFonce d) (ty : Nat) :
    ∀ e ∈ bucketOf d ty, entryWFb e = true := by
  intro e he
  obtain ⟨p, hp, hep⟩ := mem_of_bucketOf he
  exact hwf p hp e hep

theorem mem_setBucket {bs : List (Nat × List ListenerEntry)} {ty : Nat}
    {l : List ListenerEntry} {q : Nat × List ListenerEntry}
    (hq : q ∈ setBucket bs ty l) : q = (ty, l) ∨ q ∈ bs := by
  induction bs with
  | nil =>
    rw [setBucket] at hq
    rcases List.mem_cons.mp hq with h | h
    · exact Or.inl h
    · cases h
  | cons kv rest ih =>
    obtain ⟨k, v⟩ := kv
    rw [setBucket] at hq
    split at hq
    · rename_i hk
      subst hk
      rcases List.mem_cons.mp hq with h | h
      · exact Or.inl h
      · exact Or.inr (List.mem_cons_of_mem _ h)
    · rcases List.mem_cons.mp hq with h | h
      · exact Or.inr (h ▸ List.mem_cons_self _ _)
      · rcases ih h with h2 | h2
        · exact Or.inl h2
        · exact Or.inr (List.mem_cons_of_mem _ h2)

theorem WFonce_addListener (d : Dispatcher) (ty : Nat) (p : Int) (cb : Callback)
    (hwf : WFonce d)
    (hcb : entryWFb ⟨d.nextListenerId, p, cb⟩ = true) :
    WFonce (addListener d ty p cb).1 := by
  intro q hq e he
  rcases mem_setBucket hq with rfl | hq2
  · rcases (insertEntry_mem _ _ _).mp he with rfl | he2
    · exact hcb
    · obtain ⟨p2, hp2, hep2⟩ := mem_of_bucketOf he2
      exact hwf p2 hp2 e hep2
  · exact hwf q hq2 e he

theorem WFonce_removeFn (d : Dispatcher) (h : Nat) (hwf : WFonce d) :
    WFonce (removeFn d h) := by
  rw [removeFn]
  split
  · exact hwf
  · intro q hq e he
    rcases List.mem_map.mp hq with ⟨p, hp, rfl⟩
    exact hwf p hp e (List.mem_filter.mp he).1

theorem WFonce_eq_buckets {d1 d2 : Dispatcher}
    (h : d1.listenersByType = d2.listenersByType) (hwf : WFonce d1) :
    WFonce d2 := by
  intro p hp e he
  exact hwf p (h ▸ hp) e he

theorem pendingErase_pendingInsert (s : List Nat) (h : Nat) (hs : h ∉ s) :
    pendingErase (pendingInsert s h) h = s := by
  rw [pendingInsert, if_neg hs, pendingErase, List.filter_cons_of_neg (by simp)]
  apply filter_eq_self_of
  intro a ha
  simp only [ne_eq, decide_eq_true_eq]
  rintro rfl
  exact hs ha

/-- Per-job side conditions for pending-set preservation: snapshot
entries are well-formed, and an in-flight `onceWrap` id is not already
pending (guaranteed by the check in the dispatch loop). -/
def jobWF (d : Dispatcher) : Job → Prop
  | .entries es _ _ => ∀ e ∈ es, entryWFb e = true
  | .cb _ c _ _ =>
    match c with
    | .plain _ => True
    | .onceWrap lid _ => lid ∉ d.listenersScheduledForRemoval
  | _ => True

theorem pend_preserve :
    ∀ (fuel : Nat) (d : Dispatcher) (j : Job) (d2 : Dispatcher) (tr : List Event),
      run fuel d j = some (d2, tr) → WFonce d → jobWF d j →
      d2.listenersScheduledForRemoval = d.listenersScheduledForRemoval ∧
        WFonce d2 := by
  intro fuel
  induction fuel with
  | zero =>
    intro d j d2 tr h
    rw [run_zero] at h
    cases h
  | succ f ih =>
    intro d j d2 tr hrun hwf hjob
    cases j with
    | prog p =>
      cases p with
      | nil =>
        obtain ⟨rfl, rfl⟩ := run_prog_nil_inv hrun
        exact ⟨rfl, hwf⟩
      | cons c cs =>
        obtain ⟨d1, t1, t2, h1, h2, rfl⟩ := run_prog_cons_inv hrun
        obtain ⟨hp1, hw1⟩ := ih d (.cmd c) d1 t1 h1 hwf trivial
        obtain ⟨hp2, hw2⟩ := ih d1 (.prog cs) d2 t2 h2 hw1 trivial
        exact ⟨hp2.trans hp1, hw2⟩
    | cmd c =>
      cases c with
      | listen ty p b =>
        obtain ⟨rfl, rfl⟩ := run_cmd_listen_inv hrun
        exact ⟨rfl, WFonce_addListener d ty p _ hwf rfl⟩
      | listenOnce ty p b =>
        obtain ⟨rfl, rfl⟩ := run_cmd_listenOnce_inv hrun
        refine ⟨rfl, WFonce_addListener d ty p _ hwf ?_⟩
        simp [entryWFb]
      | dispatch ty pay =>
        rw [run_cmd_dispatch_eq] at hrun
        exact ih d (.disp ty pay) d2 tr hrun hwf trivial
      | queue ty pay =>
        obtain ⟨rfl, rfl⟩ := run_cmd_queue_inv hrun
        exact ⟨rfl, WFonce_eq_buckets rfl hwf⟩
      | process =>
        rw [run_cmd_process_eq] at hrun
        exact ih d (.procLoop 0) d2 tr hrun hwf trivial
      | remove h0 =>
        obtain ⟨rfl, rfl⟩ := run_cmd_remove_inv hrun
        exact ⟨removeFn_pending d h0, WFonce_removeFn d h0 hwf⟩
    | disp ty pay =>
      obtain ⟨t1, h1, rfl⟩ := run_disp_inv hrun
      exact ih d _ d2 t1 h1 hwf (fun e he => WFonce_bucket hwf ty e he)
    | entries es ty pay =>
      cases es with
      | nil =>
        obtain ⟨rfl, rfl⟩ := run_entries_nil_inv hrun
        exact ⟨rfl, hwf⟩
      | cons e es =>
        by_cases hmem : e.handle ∈ d.listenersScheduledForRemoval
        · rw [run_entries_cons_skip d es ty pay hmem] at hrun
          exact ih d (.entries es ty pay) d2 tr hrun hwf
            (fun e2 he2 => hjob e2 (List.mem_cons_of_mem e he2))
        · obtain ⟨d1, t1, t2, h1, h2, rfl⟩ := run_entries_cons_inv hmem hrun
          have hcb : jobWF d (.cb e.handle e.callback ty pay) := by
            have hewf := hjob e (List.mem_cons_self e es)
            rw [entryWFb] at hewf
            cases hc : e.callback with
            | plain b => simp [jobWF, hc]
            | onceWrap lid b =>
              rw [hc] at hewf
              simp only [beq_iff_eq] at hewf
              simp only [jobWF, hc, hewf]
              exact hmem
          obtain ⟨hp1, hw1⟩ := ih d _ d1 t1 h1 hwf hcb
          obtain ⟨hp2, hw2⟩ := ih d1 (.entries es ty pay) d2 t2 h2 hw1
            (fun e2 he2 => hjob e2 (List.mem_cons_of_mem e he2))
          exact ⟨hp2.trans hp1, hw2⟩
    | cb h0 c ty pay =>
      cases c with
      | plain body =>
        obtain ⟨t1, h1, rfl⟩ := run_cb_plain_inv hrun
        exact ih d (.prog body) d2 t1 h1 hwf trivial
      | onceWrap lid body =>
        obtain ⟨d1, t1, h1, rfl, rfl⟩ := run_cb_once_inv hrun
        have hlidnm : lid ∉ d.listenersScheduledForRemoval := hjob
        obtain ⟨hp1, hw1⟩ := ih _ (.prog body) d1 t1 h1
          (WFonce_eq_buckets rfl hwf) trivial
        constructor
        · rw [removeFn_pending]
          show pendingErase d1.listenersScheduledForRemoval lid =
            d.listenersScheduledForRemoval
          rw [hp1]
          exact pendingErase_pendingInsert _ _ hlidnm
        · exact WFonce_removeFn _ _ (WFonce_eq_buckets rfl hw1)
    | procLoop i =>
      rcases hq : d.queuedDispatches[i]? with _ | ⟨ty, pay⟩
      · obtain ⟨rfl, rfl⟩ := run_procLoop_none_inv hq hrun
        exact ⟨rfl, WFonce_eq_buckets rfl hwf⟩
      · obtain ⟨d1, t1, t2, h1, h2, rfl⟩ := run_procLoop_some_inv hq hrun
        obtain ⟨hp1, hw1⟩ := ih d (.disp ty pay) d1 t1 h1 hwf trivial
        obtain ⟨hp2, hw2⟩ := ih d1 (.procLoop (i + 1)) d2 t2 h2 hw1 trivial
        exact ⟨hp2.trans hp1, hw2⟩

end Tinyevents

namespace Tinyevents

theorem mem_allHandles_intro {d : Dispatcher} {p : Nat × List ListenerEntry}
    {e : ListenerEntry} (hp : p ∈ d.listenersByType) (he : e ∈ p.2) :
    e.handle ∈ allHandles d := by
  rw [allHandles, List.mem_flatten]
  exact ⟨p.2.map (·.handle), List.mem_map_of_mem _ hp, List.mem_map_of_mem _ he⟩

theorem hasListener_iff_mem (d : Dispatcher)
    (hpend : d.listenersScheduledForRemoval = []) (h : Nat) :
    hasListenerFn d h = true ↔ h ∈ allHandles d := by
  rw [hasListenerFn, hpend, if_neg (List.not_mem_nil h), List.any_eq_true]
  constructor
  · rintro ⟨p, hp, hany⟩
    rcases List.any_eq_true.mp hany with ⟨e, he, hbeq⟩
    have heq : e.handle = h := by simpa using hbeq
    exact heq ▸ mem_allHandles_intro hp he
  · intro hmem
    rw [allHandles, List.mem_flatten] at hmem
    rcases hmem with ⟨l, hl, hml⟩
    rcases List.mem_map.mp hl with ⟨p, hp, rfl⟩
    rcases List.mem_map.mp hml with ⟨e, he, rfl⟩
    exact ⟨p, hp, List.any_eq_true.mpr ⟨e, he, by simp⟩⟩

/-- Claim C10: the pending-removal set is empty at rest.  Every
completed top-level operation sequence started with an empty
pending-removal set (and a registry whose once-wrappers captured their
own handles, as `listenOnce` builds them) terminates with an empty
pending-removal set; consequently `hasListener` then reads the full
registry, and `remove` then removes from the full registry. -/
theorem claim_C10 (fuel : Nat) (d : Dispatcher) (p : List Cmd)
    (d2 : Dispatcher) (tr : List Event)
    (hrun : run fuel d (.prog p) = some (d2, tr)) (hwf : WFonce d)
    (hpend : d.listenersScheduledForRemoval = []) :
    d2.listenersScheduledForRemoval = [] ∧
    (∀ h, hasListenerFn d2 h = true ↔ h ∈ allHandles d2) ∧
    (∀ h, h ∉ allHandles (removeFn d2 h)) := by
  obtain ⟨hp2, _⟩ := pend_preserve fuel d (.prog p) d2 tr hrun hwf trivial
  have hpe : d2.listenersScheduledForRemoval = [] := hp2.trans hpend
  refine ⟨hpe, fun h => hasListener_iff_mem d2 hpe h, fun h => ?_⟩
  apply removeFn_not_mem
  rw [hpe]
  exact List.not_mem_nil h

/-! ## Claim C3: snapshot semantics of dispatch -/

theorem cb_trace_head {f : Nat} {d d1 : Dispatcher} {t1 : List Event}
    {h0 : Nat} {c : Callback} {ty pay : Nat}
    (h : run f d (.cb h0 c ty pay) = some (d1, t1)) :
    ∃ s, t1 = .invoke h0 ty pay :: s := by
  cases f with
  | zero => rw [run_zero] at h; cases h
  | succ f =>
    cases c with
    | plain body =>
      obtain ⟨s, _, hs⟩ := run_cb_plain_inv h
      exact ⟨s, hs⟩
    | onceWrap lid body =>
      obtain ⟨d3, s, _, _, hs⟩ := run_cb_once_inv h
      exact ⟨s, hs⟩

theorem entries_trace :
    ∀ (fuel : Nat) (d : Dispatcher) (es : List ListenerEntry) (ty pay : Nat)
      (d2 : Dispatcher) (tr : List Event),
      run fuel d (.entries es ty pay) = some (d2, tr) → WFonce d →
      (∀ e ∈ es, entryWFb e = true) →
      ∃ subs : List (List Event),
        subs.length =
          (es.filter
            (fun e => e.handle ∉ d.listenersScheduledForRemoval)).length ∧
        tr = (List.zipWith (fun e s => Event.invoke e.handle ty pay :: s)
          (es.filter (fun e => e.handle ∉ d.listenersScheduledForRemoval))
          subs).flatten := by
  intro fuel
  induction fuel with
  | zero =>
    intro d es ty pay d2 tr h
    rw [run_zero] at h
    cases h
  | succ f ih =>
    intro d es ty pay d2 tr hrun hwf hes
    cases es with
    | nil =>
      obtain ⟨rfl, rfl⟩ := run_entries_nil_inv hrun
      exact ⟨[], rfl, rfl⟩
    | cons e es2 =>
      by_cases hmem : e.handle ∈ d.listenersScheduledForRemoval
      · rw [run_entries_cons_skip d es2 ty pay hmem] at hrun
        obtain ⟨subs, hlen, htr⟩ := ih d es2 ty pay d2 tr hrun hwf
          (fun e2 he2 => hes e2 (List.mem_cons_of_mem e he2))
        refine ⟨subs, ?_, ?_⟩
        · rw [List.filter_cons_of_neg (by simpa using hmem)]
          exact hlen
        · rw [List.filter_cons_of_neg (by simpa using hmem)]
          exact htr
      · obtain ⟨d1, t1, t2, h1, h2, rfl⟩ := run_entries_cons_inv hmem hrun
        have hcb : jobWF d (.cb e.handle e.callback ty pay) := by
          have hewf := hes e (List.mem_cons_self e es2)
          rw [entryWFb] at hewf
          cases hc : e.callback with
          | plain b => simp [jobWF, hc]
          | onceWrap lid b =>
            rw [hc] at hewf
            simp only [beq_iff_eq] at hewf
            simp only [jobWF, hc, hewf]
            exact hmem
        obtain ⟨hpend1, hwf1⟩ := pend_preserve f d _ d1 t1 h1 hwf hcb
        obtain ⟨s, rfl⟩ := cb_trace_head h1
        obtain ⟨subs, hlen, htr⟩ := ih d1 es2 ty pay d2 t2 h2 hwf1
          (fun e2 he2 => hes e2 (List.mem_cons_of_mem e he2))
        rw [hpend1] at hlen htr
        refine ⟨s :: subs, ?_, ?_⟩
        · rw [List.filter_cons_of_pos (by simpa using hmem)]
          simp [hlen]
        · rw [List.filter_cons_of_pos (by simpa using hmem), htr]
          rfl

theorem not_mem_bucket_handles {d : Dispatcher} {h ty : Nat}
    (hnm : h ∉ allHandles d) : h ∉ (bucketOf d ty).map (·.handle) := by
  intro hmem
  rcases List.mem_map.mp hmem with ⟨e, he, rfl⟩
  obtain ⟨p, hp, hep⟩ := mem_of_bucketOf he
  exact hnm (mem_allHandles_intro hp hep)

/-- Claim C3: `dispatch` iterates over a snapshot taken at the start of
the call.  A completed dispatch pass from a well-formed state produces
exactly one `invoke` event per entry of the bucket at call time that is
not suppressed by the pending-removal set at call time, in bucket
order, each followed by the events of its callback (the `subs`
components).  Hence (a) a listener added during the pass (absent from
the snapshot) receives no invocation from this pass, (b) a listener
removed via `remove()` during the pass but present in the snapshot
still fires in this pass — only pending-removal-set membership
suppresses an entry — and it does not fire in any later dispatch, since
a handle absent from the registry is absent from every later pass
order. -/
theorem claim_C3 (fuel : Nat) (d : Dispatcher) (ty pay : Nat)
    (d2 : Dispatcher) (tr : List Event)
    (hrun : run (fuel + 1) d (.disp ty pay) = some (d2, tr))
    (hwf : WFonce d) :
    (∃ subs : List (List Event),
      subs.length =
        ((bucketOf d ty).filter
          (fun e => e.handle ∉ d.listenersScheduledForRemoval)).length ∧
      tr = .dispatched ty pay ::
        (List.zipWith (fun e s => Event.invoke e.handle ty pay :: s)
          ((bucketOf d ty).filter
            (fun e => e.handle ∉ d.listenersScheduledForRemoval))
          subs).flatten) ∧
    (∀ h2 ty2, h2 ∉ allHandles d2 →
      h2 ∉ (bucketOf d2 ty2).map (·.handle)) := by
  obtain ⟨t1, h1, rfl⟩ := run_disp_inv hrun
  obtain ⟨subs, hlen, htr⟩ := entries_trace fuel d (bucketOf d ty) ty pay d2 t1 h1
    hwf (fun e he => WFonce_bucket hwf ty e he)
  exact ⟨⟨subs, hlen, by rw [htr]⟩,
    fun h2 ty2 hnm => not_mem_bucket_handles hnm⟩

end Tinyevents

namespace Tinyevents

/-! ## Claim C4: fixed-point drain of process() -/

theorem addListener_queue (d : Dispatcher) (ty : Nat) (p : Int) (cb : Callback) :
    (addListener d ty p cb).1.queuedDispatches = d.queuedDispatches := rfl

theorem removeFn_queue (d : Dispatcher) (h : Nat) :
    (removeFn d h).queuedDispatches = d.queuedDispatches := by
  rw [removeFn]; split <;> rfl

theorem disp_trace_head {f : Nat} {d d1 : Dispatcher} {t1 : List Event}
    {ty pay : Nat} (h : run f d (.disp ty pay) = some (d1, t1)) :
    Event.dispatched ty pay ∈ t1 := by
  cases f with
  | zero => rw [run_zero] at h; cases h
  | succ f =>
    obtain ⟨s, _, rfl⟩ := run_disp_inv h
    exact List.mem_cons_self _ _

theorem procLoop_clears :
    ∀ (fuel : Nat) (d : Dispatcher) (i : Nat) (d2 : Dispatcher) (tr : List Event),
      run fuel d (.procLoop i) = some (d2, tr) → d2.queuedDispatches = [] := by
  intro fuel
  induction fuel with
  | zero =>
    intro d i d2 tr h
    rw [run_zero] at h
    cases h
  | succ f ih =>
    intro d i d2 tr hrun
    rcases hq : d.queuedDispatches[i]? with _ | ⟨ty, pay⟩
    · obtain ⟨rfl, rfl⟩ := run_procLoop_none_inv hq hrun
      rfl
    · obtain ⟨d1, t1, t2, _, h2, rfl⟩ := run_procLoop_some_inv hq hrun
      exact ih d1 (i + 1) d2 t2 h2

theorem queue_preserved_or_dispatched :
    ∀ (fuel : Nat) (d : Dispatcher) (j : Job) (d2 : Dispatcher) (tr : List Event),
      run fuel d j = some (d2, tr) →
      ((∀ i0, j ≠ Job.procLoop i0) →
        ∀ (k : Nat) (m : Nat × Nat), d.queuedDispatches[k]? = some m →
          d2.queuedDispatches[k]? = some m ∨ Event.dispatched m.1 m.2 ∈ tr) ∧
      (∀ i0, j = Job.procLoop i0 →
        ∀ (k : Nat) (m : Nat × Nat), i0 ≤ k → d.queuedDispatches[k]? = some m →
          Event.dispatched m.1 m.2 ∈ tr) := by
  intro fuel
  induction fuel with
  | zero =>
    intro d j d2 tr h
    rw [run_zero] at h
    cases h
  | succ f ih =>
    intro d j d2 tr hrun
    cases j with
    | prog p =>
      refine ⟨?_, fun i0 heq => nomatch heq⟩
      intro _ k m hk
      cases p with
      | nil =>
        obtain ⟨rfl, rfl⟩ := run_prog_nil_inv hrun
        exact Or.inl hk
      | cons c cs =>
        obtain ⟨d1, t1, t2, h1, h2, rfl⟩ := run_prog_cons_inv hrun
        rcases (ih d (.cmd c) d1 t1 h1).1 (fun i0 heq => nomatch heq) k m hk with
          hk1 | hd1
        · rcases (ih d1 (.prog cs) d2 t2 h2).1 (fun i0 heq => nomatch heq) k m hk1 with
            hk2 | hd2
          · exact Or.inl hk2
          · exact Or.inr (List.mem_append.mpr (Or.inr hd2))
        · exact Or.inr (List.mem_append.mpr (Or.inl hd1))
    | cmd c =>
      refine ⟨?_, fun i0 heq => nomatch heq⟩
      intro _ k m hk
      cases c with
      | listen ty p b =>
        obtain ⟨rfl, rfl⟩ := run_cmd_listen_inv hrun
        exact Or.inl hk
      | listenOnce ty p b =>
        obtain ⟨rfl, rfl⟩ := run_cmd_listenOnce_inv hrun
        exact Or.inl hk
      | dispatch ty pay =>
        rw [run_cmd_dispatch_eq] at hrun
        exact (ih d (.disp ty pay) d2 tr hrun).1 (fun i0 heq => nomatch heq) k m hk
      | queue ty pay =>
        obtain ⟨rfl, rfl⟩ := run_cmd_queue_inv hrun
        refine Or.inl ?_
        have hlt : k < d.queuedDispatches.length := by
          rcases List.getElem?_eq_some_iff.mp hk with ⟨hlt, _⟩
          exact hlt
        show (d.queuedDispatches ++ [(ty, pay)])[k]? = some m
        rw [List.getElem?_append_left hlt]
        exact hk
      | process =>
        rw [run_cmd_process_eq] at hrun
        exact Or.inr ((ih d (.procLoop 0) d2 tr hrun).2 0 rfl k m (Nat.zero_le k) hk)
      | remove h0 =>
        obtain ⟨rfl, rfl⟩ := run_cmd_remove_inv hrun
        rw [removeFn_queue]
        exact Or.inl hk
    | disp ty pay =>
      refine ⟨?_, fun i0 heq => nomatch heq⟩
      intro _ k m hk
      obtain ⟨t1, h1, rfl⟩ := run_disp_inv hrun
      rcases (ih d _ d2 t1 h1).1 (fun i0 heq => nomatch heq) k m hk with hk1 | hd1
      · exact Or.inl hk1
      · exact Or.inr (List.mem_cons_of_mem _ hd1)
    | entries es ty pay =>
      refine ⟨?_, fun i0 heq => nomatch heq⟩
      intro _ k m hk
      cases es with
      | nil =>
        obtain ⟨rfl, rfl⟩ := run_entries_nil_inv hrun
        exact Or.inl hk
      | cons e es2 =>
        by_cases hmem : e.handle ∈ d.listenersScheduledForRemoval
        · rw [run_entries_cons_skip d es2 ty pay hmem] at hrun
          exact (ih d (.entries es2 ty pay) d2 tr hrun).1
            (fun i0 heq => nomatch heq) k m hk
        · obtain ⟨d1, t1, t2, h1, h2, rfl⟩ := run_entries_cons_inv hmem hrun
          rcases (ih d _ d1 t1 h1).1 (fun i0 heq => nomatch heq) k m hk with
            hk1 | hd1
          · rcases (ih d1 (.entries es2 ty pay) d2 t2 h2).1
              (fun i0 heq => nomatch heq) k m hk1 with hk2 | hd2
            · exact Or.inl hk2
            · exact Or.inr (List.mem_append.mpr (Or.inr hd2))
          · exact Or.inr (List.mem_append.mpr (Or.inl hd1))
    | cb h0 c ty pay =>
      refine ⟨?_, fun i0 heq => nomatch heq⟩
      intro _ k m hk
      cases c with
      | plain body =>
        obtain ⟨t1, h1, rfl⟩ := run_cb_plain_inv hrun
        rcases (ih d (.prog body) d2 t1 h1).1 (fun i0 heq => nomatch heq) k m hk with
          hk1 | hd1
        · exact Or.inl hk1
        · exact Or.inr (List.mem_cons_of_mem _ hd1)
      | onceWrap lid body =>
        obtain ⟨d1, t1, h1, rfl, rfl⟩ := run_cb_once_inv hrun
        rcases (ih _ (.prog body) d1 t1 h1).1 (fun i0 heq => nomatch heq) k m hk with
          hk1 | hd1
        · refine Or.inl ?_
          rw [removeFn_queue]
          exact hk1
        · exact Or.inr (List.mem_cons_of_mem _ hd1)
    | procLoop i =>
      refine ⟨fun hne => absurd rfl (hne i), ?_⟩
      rintro i0 heq k m hik hk
      obtain rfl : i = i0 := by
        injection heq
      rcases hq : d.queuedDispatches[i]? with _ | ⟨ty, pay⟩
      · exfalso
        have hlen : d.queuedDispatches.length ≤ i := List.getElem?_eq_none_iff.mp hq
        rcases List.getElem?_eq_some_iff.mp hk with ⟨hlt, _⟩
        omega
      · obtain ⟨d1, t1, t2, h1, h2, rfl⟩ := run_procLoop_some_inv hq hrun
        rcases Nat.eq_or_lt_of_le hik with rfl | hik2
        · have hmeq : m = (ty, pay) := by
            rw [hk] at hq
            injection hq
          subst hmeq
          exact List.mem_append.mpr (Or.inl (disp_trace_head h1))
        · rcases (ih d (.disp ty pay) d1 t1 h1).1 (fun i2 heq2 => nomatch heq2) k m hk with
            hk1 | hd1
          · exact List.mem_append.mpr
              (Or.inr ((ih d1 (.procLoop (i + 1)) d2 t2 h2).2 (i + 1) rfl k m hik2 hk1))
          · exact List.mem_append.mpr (Or.inl hd1)

/-- Claim C4: `process()` drains the deferred queue to a fixed point.
Stated on the drain loop at any position `i`: when the loop completes,
the queue has been cleared, and every message at a position the loop
had not yet passed — in particular one appended by `queue()` from
inside a closure invoked during the drain — has a `dispatched` event in
the trace of this same call. -/
theorem claim_C4 (fuel : Nat) (d : Dispatcher) (i : Nat) (d2 : Dispatcher)
    (tr : List Event) (hrun : run fuel d (.procLoop i) = some (d2, tr)) :
    d2.queuedDispatches = [] ∧
    ∀ (k : Nat) (m : Nat × Nat), i ≤ k → d.queuedDispatches[k]? = some m →
      Event.dispatched m.1 m.2 ∈ tr :=
  ⟨procLoop_clears fuel d i d2 tr hrun,
    (queue_preserved_or_dispatched fuel d (.procLoop i) d2 tr hrun).2 i rfl⟩

end Tinyevents

namespace Tinyevents

/-! ## Claim C5: FIFO delivery of the deferred queue -/

/-- A stored callback with an empty body: invoking it performs no
commands. -/
def trivialEntry (e : ListenerEntry) : Bool :=
  match e.callback with
  | .plain [] => true
  | _ => false

/-- All registered callbacks have empty bodies. -/
def TrivialCbs (d : Dispatcher) : Prop :=
  ∀ p ∈ d.listenersByType, ∀ e ∈ p.2, trivialEntry e = true

theorem trivialEntry_plain {e : ListenerEntry} (h : trivialEntry e = true) :
    e.callback = .plain [] := by
  cases hc : e.callback with
  | plain b =>
    cases b with
    | nil => rfl
    | cons c cs =>
      rw [trivialEntry, hc] at h
      cases h
  | onceWrap lid b =>
    rw [trivialEntry, hc] at h
    cases h

theorem dispatchedEvents_append (t1 t2 : List Event) :
    dispatchedEvents (t1 ++ t2) = dispatchedEvents t1 ++ dispatchedEvents t2 := by
  rw [dispatchedEvents, dispatchedEvents, dispatchedEvents, List.filterMap_append]

theorem triv_run :
    ∀ (fuel : Nat) (d : Dispatcher) (j : Job) (d2 : Dispatcher) (tr : List Event),
      run fuel d j = some (d2, tr) → TrivialCbs d →
      ((∀ ty pay, j = .disp ty pay → d2 = d ∧ dispatchedEvents tr = [(ty, pay)]) ∧
       (∀ es ty pay, j = .entries es ty pay → (∀ e ∈ es, trivialEntry e = true) →
          d2 = d ∧ dispatchedEvents tr = []) ∧
       (∀ h0 c ty pay, j = .cb h0 c ty pay → c = .plain [] →
          d2 = d ∧ dispatchedEvents tr = [])) := by
  intro fuel
  induction fuel with
  | zero =>
    intro d j d2 tr h
    rw [run_zero] at h
    cases h
  | succ f ih =>
    intro d j d2 tr hrun htriv
    refine ⟨?_, ?_, ?_⟩
    · rintro ty pay rfl
      obtain ⟨t1, h1, rfl⟩ := run_disp_inv hrun
      have hes : ∀ e ∈ (lookupBucket d ty).getD [], trivialEntry e = true := by
        intro e he
        obtain ⟨p, hp, hep⟩ := mem_of_bucketOf he
        exact htriv p hp e hep
      obtain ⟨heq, hde⟩ := (ih d _ d2 t1 h1 htriv).2.1 _ ty pay rfl hes
      refine ⟨heq, ?_⟩
      rw [show (Event.dispatched ty pay :: t1 : List Event) =
        [Event.dispatched ty pay] ++ t1 from rfl, dispatchedEvents_append, hde]
      rfl
    · rintro es ty pay rfl hes
      cases es with
      | nil =>
        obtain ⟨rfl, rfl⟩ := run_entries_nil_inv hrun
        exact ⟨rfl, rfl⟩
      | cons e es2 =>
        by_cases hmem : e.handle ∈ d.listenersScheduledForRemoval
        · rw [run_entries_cons_skip d es2 ty pay hmem] at hrun
          exact (ih d _ d2 tr hrun htriv).2.1 es2 ty pay rfl
            (fun e2 he2 => hes e2 (List.mem_cons_of_mem e he2))
        · obtain ⟨d1, t1, t2, h1, h2, rfl⟩ := run_entries_cons_inv hmem hrun
          have hpl : e.callback = .plain [] :=
            trivialEntry_plain (hes e (List.mem_cons_self e es2))
          obtain ⟨heq1, hde1⟩ := (ih d _ d1 t1 h1 htriv).2.2 e.handle e.callback
            ty pay rfl hpl
          rw [heq1] at h2
          obtain ⟨heq2, hde2⟩ := (ih d _ d2 t2 h2 htriv).2.1 es2 ty pay rfl
            (fun e2 he2 => hes e2 (List.mem_cons_of_mem e he2))
          rw [dispatchedEvents_append, hde1, hde2]
          exact ⟨heq2, rfl⟩
    · rintro h0 c ty pay rfl rfl
      obtain ⟨t1, h1, rfl⟩ := run_cb_plain_inv hrun
      cases f with
      | zero =>
        rw [run_zero] at h1
        cases h1
      | succ f2 =>
        obtain ⟨rfl, rfl⟩ := run_prog_nil_inv h1
        exact ⟨rfl, rfl⟩

theorem triv_procLoop :
    ∀ (fuel : Nat) (d : Dispatcher) (i : Nat) (d2 : Dispatcher) (tr : List Event),
      run fuel d (.procLoop i) = some (d2, tr) → TrivialCbs d →
      d2 = { d with queuedDispatches := [] } ∧
        dispatchedEvents tr = d.queuedDispatches.drop i := by
  intro fuel
  induction fuel with
  | zero =>
    intro d i d2 tr h
    rw [run_zero] at h
    cases h
  | succ f ih =>
    intro d i d2 tr hrun htriv
    rcases hq : d.queuedDispatches[i]? with _ | ⟨ty, pay⟩
    · obtain ⟨rfl, rfl⟩ := run_procLoop_none_inv hq hrun
      have hlen : d.queuedDispatches.length ≤ i := List.getElem?_eq_none_iff.mp hq
      rw [List.drop_eq_nil_of_le hlen]
      exact ⟨rfl, rfl⟩
    · obtain ⟨d1, t1, t2, h1, h2, rfl⟩ := run_procLoop_some_inv hq hrun
      obtain ⟨heq1, hde1⟩ := (triv_run f d _ d1 t1 h1 htriv).1 ty pay rfl
      rw [heq1] at h2
      obtain ⟨heq2, hde2⟩ := ih d (i + 1) d2 t2 h2 htriv
      rcases List.getElem?_eq_some_iff.mp hq with ⟨hlt, hget⟩
      refine ⟨heq2, ?_⟩
      rw [dispatchedEvents_append, hde1, hde2, List.drop_eq_getElem_cons hlt, hget]
      rfl

theorem foldl_queueFn (msgs : List (Nat × Nat)) (d : Dispatcher) :
    (msgs.foldl (fun dd m => queueFn dd m.1 m.2) d).queuedDispatches =
        d.queuedDispatches ++ msgs ∧
      (msgs.foldl (fun dd m => queueFn dd m.1 m.2) d).listenersByType =
        d.listenersByType := by
  induction msgs generalizing d with
  | nil => simp
  | cons m ms ih =>
    rw [List.foldl_cons]
    obtain ⟨h1, h2⟩ := ih (queueFn d m.1 m.2)
    refine ⟨?_, h2⟩
    rw [h1, queueFn]
    simp

theorem TrivialCbs_eq_buckets {d1 d2 : Dispatcher}
    (h : d1.listenersByType = d2.listenersByType) (ht : TrivialCbs d1) :
    TrivialCbs d2 := by
  intro p hp e he
  exact ht p (h ▸ hp) e he

/-- Claim C5: for every sequence of `queue()` calls followed by one
`process()` call, the queued messages are dispatched in exactly the
order they were queued, FIFO across all `queue()` calls regardless of
message type.  Stated for a dispatcher whose registered callbacks have
empty bodies (so that the trace contains no further dispatches to
interleave) and an initially empty queue. -/
theorem claim_C5 (fuel : Nat) (d : Dispatcher) (msgs : List (Nat × Nat))
    (d2 : Dispatcher) (tr : List Event)
    (hq0 : d.queuedDispatches = []) (htriv : TrivialCbs d)
    (hrun : run (fuel + 1) (msgs.foldl (fun dd m => queueFn dd m.1 m.2) d)
      (.cmd .process) = some (d2, tr)) :
    dispatchedEvents tr = msgs ∧ d2.queuedDispatches = [] := by
  rw [run_cmd_process_eq] at hrun
  obtain ⟨hqf, hbf⟩ := foldl_queueFn msgs d
  obtain ⟨rfl, hde⟩ := triv_procLoop fuel _ 0 d2 tr hrun
    (TrivialCbs_eq_buckets hbf.symm htriv)
  refine ⟨?_, rfl⟩
  rw [hde, List.drop_zero, hqf, hq0, List.nil_append]

end Tinyevents

namespace Tinyevents

/-! ## Witnesses for C3, C4, C5, C10 -/

instance (d : Dispatcher) : Decidable (WFonce d) :=
  inferInstanceAs
    (Decidable (∀ p ∈ d.listenersByType, ∀ e ∈ p.2, entryWFb e = true))

instance (d : Dispatcher) : Decidable (TrivialCbs d) :=
  inferInstanceAs
    (Decidable (∀ p ∈ d.listenersByType, ∀ e ∈ p.2, trivialEntry e = true))

/-- One `listenOnce` listener on type 0 (handle 0). -/
def dC10 : Dispatcher := (listenOnceFn emptyD 0 0 []).1

/-- Witness for C10: dispatching through the once-wrapper leaves the
pending-removal set empty. -/
theorem claim_C10_witness :
    run 10 dC10 (.prog [.dispatch 0 5]) =
      some (⟨[(0, [])], [], [], 1⟩, [.dispatched 0 5, .invoke 0 0 5]) ∧
    (⟨[(0, [])], [], [], 1⟩ : Dispatcher).listenersScheduledForRemoval = [] := by
  refine ⟨rfl, ?_⟩
  exact (claim_C10 10 dC10 [.dispatch 0 5] ⟨[(0, [])], [], [], 1⟩
    [.dispatched 0 5, .invoke 0 0 5] rfl (by decide) rfl).1

/-- Listener 0 (priority 1) removes listener 1 during the pass;
listener 1 (priority 0) has an empty callback. -/
def dC3 : Dispatcher := (listenFn (listenFn emptyD 0 1 [.remove 1]).1 0 0 []).1

/-- Witness for C3: listener 1, removed mid-pass by listener 0, still
fires in the same pass (it is in the snapshot and never pending). -/
theorem claim_C3_witness :
    run (9 + 1) dC3 (.disp 0 7) =
      some (⟨[(0, [⟨0, 1, .plain [.remove 1]⟩])], [], [], 2⟩,
        [.dispatched 0 7, .invoke 0 0 7, .invoke 1 0 7]) ∧
    (∃ subs : List (List Event),
      subs.length = ((bucketOf dC3 0).filter
        (fun e => e.handle ∉ dC3.listenersScheduledForRemoval)).length ∧
      ([.dispatched 0 7, .invoke 0 0 7, .invoke 1 0 7] : List Event) =
        .dispatched 0 7 ::
          (List.zipWith (fun e s => Event.invoke e.handle 0 7 :: s)
            ((bucketOf dC3 0).filter
              (fun e => e.handle ∉ dC3.listenersScheduledForRemoval))
            subs).flatten) := by
  refine ⟨rfl, ?_⟩
  exact (claim_C3 9 dC3 0 7 ⟨[(0, [⟨0, 1, .plain [.remove 1]⟩])], [], [], 2⟩
    [.dispatched 0 7, .invoke 0 0 7, .invoke 1 0 7] rfl (by decide)).1

/-- A listener on type 0 that queues `(1, 9)` when invoked, and a queued
`(0, 5)` message. -/
def dC4 : Dispatcher := queueFn (listenFn emptyD 0 0 [.queue 1 9]).1 0 5

/-- The state `process()` reaches after draining position 0 of `dC4`:
its closure re-entrantly queued `(1, 9)` at position 1. -/
def dC4mid : Dispatcher := queueFn dC4 1 9

/-- Witness for C4: the message queued during the drain is itself
dispatched within the same `process()` call, and the queue ends empty. -/
theorem claim_C4_witness :
    dC4mid.queuedDispatches[1]? = some (1, 9) ∧
    run 11 dC4mid (.procLoop 1) =
      some (⟨[(0, [⟨0, 0, .plain [.queue 1 9]⟩])], [], [], 1⟩,
        [.dispatched 1 9]) ∧
    (⟨[(0, [⟨0, 0, .plain [.queue 1 9]⟩])], [], [], 1⟩ :
      Dispatcher).queuedDispatches = [] ∧
    Event.dispatched 1 9 ∈ ([.dispatched 1 9] : List Event) := by
  have hc := claim_C4 11 dC4mid 1
    ⟨[(0, [⟨0, 0, .plain [.queue 1 9]⟩])], [], [], 1⟩ [.dispatched 1 9] rfl
  exact ⟨rfl, rfl, hc.1, hc.2 1 (1, 9) (Nat.le_refl 1) rfl⟩

/-- One no-op listener on type 0. -/
def dC5base : Dispatcher := (listenFn emptyD 0 0 []).1

/-- Witness for C5: queueing `(0,1)` then `(1,2)` and processing
dispatches them in exactly that order. -/
theorem claim_C5_witness :
    run (11 + 1)
      ([((0 : Nat), (1 : Nat)), (1, 2)].foldl
        (fun dd m => queueFn dd m.1 m.2) dC5base) (.cmd .process) =
      some (⟨[(0, [⟨0, 0, .plain []⟩])], [], [], 1⟩,
        [.dispatched 0 1, .invoke 0 0 1, .dispatched 1 2]) ∧
    dispatchedEvents [.dispatched 0 1, .invoke 0 0 1, .dispatched 1 2] =
      [(0, 1), (1, 2)] := by
  refine ⟨rfl, ?_⟩
  exact (claim_C5 11 dC5base [(0, 1), (1, 2)]
    ⟨[(0, [⟨0, 0, .plain []⟩])], [], [], 1⟩
    [.dispatched 0 1, .invoke 0 0 1, .dispatched 1 2] rfl (by decide) rfl).1

end Tinyevents

namespace Tinyevents

/-! ## Claim C2: exactly-once delivery of listenOnce

The original claim fails: a completed once-wrapper can be re-invoked by
an outer pass whose snapshot still contains its entry (see
`claim_C2_counterexample`).  The amended claim restricts the other
listeners' callbacks from re-entrantly dispatching the once-listener's
type (directly, or via `process`). -/

mutual
/-- `avoidsCmd ty c`: the command never dispatches type `ty` and never
calls `process`, hereditarily through the bodies of listeners it
registers. -/
def avoidsCmd (ty : Nat) : Cmd → Bool
  | .listen _ _ body => avoidsProg ty body
  | .listenOnce _ _ body => avoidsProg ty body
  | .dispatch t _ => t != ty
  | .queue _ _ => true
  | .process => false
  | .remove _ => true
def avoidsProg (ty : Nat) : List Cmd → Bool
  | [] => true
  | c :: cs => avoidsCmd ty c && avoidsProg ty cs
end

/-- `avoidsCmd` lifted to a stored callback's body. -/
def avoidsCb (ty : Nat) : Callback → Bool
  | .plain body => avoidsProg ty body
  | .onceWrap _ body => avoidsProg ty body

/-- The stored callback is not a once-wrapper that captured id `h`. -/
def onceIdNe (h : Nat) (e : ListenerEntry) : Bool :=
  match e.callback with
  | .plain _ => true
  | .onceWrap lid _ => lid != h

/-- The stored callback is a once-wrapper that captured id `h`. -/
def isOnceH (h : Nat) (e : ListenerEntry) : Bool :=
  match e.callback with
  | .plain _ => false
  | .onceWrap lid _ => lid == h

/-- A property of every entry stored in the registry. -/
def AllEntries (d : Dispatcher) (P : ListenerEntry → Prop) : Prop :=
  ∀ p ∈ d.listenersByType, ∀ e ∈ p.2, P e

theorem AllEntries_addListener {d : Dispatcher} {P : ListenerEntry → Prop}
    {ty : Nat} {pr : Int} {cb : Callback}
    (hall : AllEntries d P) (hnew : P ⟨d.nextListenerId, pr, cb⟩) :
    AllEntries (addListener d ty pr cb).1 P := by
  intro q hq e he
  rcases mem_setBucket hq with rfl | hq2
  · rcases (insertEntry_mem _ _ _).mp he with rfl | he2
    · exact hnew
    · obtain ⟨p2, hp2, hep2⟩ := mem_of_bucketOf he2
      exact hall p2 hp2 e hep2
  · exact hall q hq2 e he

theorem AllEntries_removeFn {d : Dispatcher} {P : ListenerEntry → Prop}
    {h2 : Nat} (hall : AllEntries d P) : AllEntries (removeFn d h2) P := by
  rw [removeFn]
  split
  · exact hall
  · intro q hq e he
    rcases List.mem_map.mp hq with ⟨p, hp, rfl⟩
    exact hall p hp e (List.mem_filter.mp he).1

theorem AllEntries_eq_buckets {d1 d2 : Dispatcher} {P : ListenerEntry → Prop}
    (h : d1.listenersByType = d2.listenersByType) (hall : AllEntries d1 P) :
    AllEntries d2 P := by
  intro p hp e he
  exact hall p (h ▸ hp) e he

theorem allHandles_elim {d : Dispatcher} {h : Nat} (hm : h ∈ allHandles d) :
    ∃ p ∈ d.listenersByType, ∃ e ∈ p.2, e.handle = h := by
  rw [allHandles, List.mem_flatten] at hm
  rcases hm with ⟨l, hl, hml⟩
  rcases List.mem_map.mp hl with ⟨p, hp, rfl⟩
  rcases List.mem_map.mp hml with ⟨e, he, rfl⟩
  exact ⟨p, hp, e, he, rfl⟩

theorem not_mem_allHandles_addListener {d : Dispatcher} {h ty : Nat} {pr : Int}
    {cb : Callback} (hne : d.nextListenerId ≠ h) (hnm : h ∉ allHandles d) :
    h ∉ allHandles (addListener d ty pr cb).1 := by
  intro hm
  obtain ⟨q, hq, e, he, heq⟩ := allHandles_elim hm
  rcases mem_setBucket hq with rfl | hq2
  · rcases (insertEntry_mem _ _ _).mp he with rfl | he2
    · exact hne heq
    · obtain ⟨p2, hp2, hep2⟩ := mem_of_bucketOf he2
      exact hnm (heq ▸ mem_allHandles_intro hp2 hep2)
  · exact hnm (heq ▸ mem_allHandles_intro hq2 he)

theorem not_mem_allHandles_removeFn {d : Dispatcher} {h h2 : Nat}
    (hnm : h ∉ allHandles d) : h ∉ allHandles (removeFn d h2) := by
  intro hm
  obtain ⟨q, hq, e, he, heq⟩ := allHandles_elim hm
  apply hnm
  rw [removeFn] at hq
  split at hq
  · exact heq ▸ mem_allHandles_intro hq he
  · rcases List.mem_map.mp hq with ⟨p, hp, rfl⟩
    exact heq ▸ mem_allHandles_intro hp (List.mem_filter.mp he).1

theorem bucketOf_key {d : Dispatcher} {ty : Nat} {e : ListenerEntry}
    (he : e ∈ bucketOf d ty) :
    ∃ p ∈ d.listenersByType, p.1 = ty ∧ e ∈ p.2 := by
  rw [bucketOf_eq_listenersByType] at he
  rcases hf : d.listenersByType.find? (fun p => p.1 == ty) with _ | p
  · rw [hf] at he
    simp at he
  · rw [hf] at he
    have hkey : p.1 = ty := by simpa using List.find?_some hf
    exact ⟨p, List.mem_of_find?_eq_some hf, hkey, he⟩

theorem mem_pendingInsert_of_mem {s : List Nat} {h lid : Nat} (hm : h ∈ s) :
    h ∈ pendingInsert s lid := by
  rw [pendingInsert]
  split
  · exact hm
  · exact List.mem_cons_of_mem _ hm

theorem not_mem_pendingInsert {s : List Nat} {h lid : Nat} (hm : h ∉ s)
    (hne : h ≠ lid) : h ∉ pendingInsert s lid := by
  rw [pendingInsert]
  split
  · exact hm
  · intro hc
    rcases List.mem_cons.mp hc with heq | hc2
    · exact hne heq
    · exact hm hc2

theorem mem_pendingErase_of_mem {s : List Nat} {h lid : Nat} (hm : h ∈ s)
    (hne : h ≠ lid) : h ∈ pendingErase s lid := by
  rw [pendingErase]
  rw [List.mem_filter]
  exact ⟨hm, by simpa using hne⟩

theorem not_mem_pendingErase_of_not_mem {s : List Nat} {h lid : Nat}
    (hm : h ∉ s) : h ∉ pendingErase s lid := by
  intro hc
  exact hm (List.mem_filter.mp hc).1

theorem not_mem_pendingErase_self (s : List Nat) (lid : Nat) :
    lid ∉ pendingErase s lid := by
  intro hc
  have := (List.mem_filter.mp hc).2
  simp at this

theorem countP_insertEntry (e : ListenerEntry) (l : List ListenerEntry)
    (p : ListenerEntry → Bool) :
    (insertEntry e l).countP p = l.countP p + if p e then 1 else 0 := by
  induction l with
  | nil => simp [insertEntry, List.countP_cons]
  | cons x xs ih =>
    rw [insertEntry]
    split
    · simp only [List.countP_cons]
      try omega
    · simp only [List.countP_cons, ih]
      try omega

theorem countP_filter_le (l : List ListenerEntry) (p q : ListenerEntry → Bool) :
    (l.filter q).countP p ≤ l.countP p := by
  rw [List.countP_filter]
  induction l with
  | nil => rfl
  | cons x xs ih =>
    rw [List.countP_cons, List.countP_cons]
    rcases hp : p x <;> rcases hq : q x <;> simp [hp, hq] <;> omega

theorem countInvoke_append (h : Nat) (t1 t2 : List Event) :
    countInvoke h (t1 ++ t2) = countInvoke h t1 + countInvoke h t2 := by
  rw [countInvoke, countInvoke, countInvoke, List.countP_append]

theorem countInvoke_cons_invoke (h h0 ty pay : Nat) (t : List Event) :
    countInvoke h (.invoke h0 ty pay :: t) =
      countInvoke h t + if h0 = h then 1 else 0 := by
  rw [countInvoke, countInvoke, List.countP_cons]
  simp

theorem countInvoke_cons_dispatched (h ty pay : Nat) (t : List Event) :
    countInvoke h (.dispatched ty pay :: t) = countInvoke h t := by
  rw [countInvoke, countInvoke, List.countP_cons]
  simp

theorem countInvoke_registered (h h0 : Nat) :
    countInvoke h [.registered h0] = 0 := rfl

theorem reg_not_mem_append {h : Nat} {t1 t2 : List Event}
    (hr : Event.registered h ∉ t1 ++ t2) :
    Event.registered h ∉ t1 ∧ Event.registered h ∉ t2 := by
  constructor
  · intro hc; exact hr (List.mem_append.mpr (Or.inl hc))
  · intro hc; exact hr (List.mem_append.mpr (Or.inr hc))

theorem reg_not_mem_cons {h : Nat} {ev : Event} {t : List Event}
    (hr : Event.registered h ∉ ev :: t) : Event.registered h ∉ t := by
  intro hc
  exact hr (List.mem_cons_of_mem _ hc)

end Tinyevents

namespace Tinyevents

theorem onceIdNe_ne {h : Nat} {e : ListenerEntry} {lid : Nat} {b : List Cmd}
    (ho : onceIdNe h e = true) (hc : e.callback = .onceWrap lid b) : lid ≠ h := by
  rw [onceIdNe, hc] at ho
  simpa using ho

/-- Invariant while the once-wrapper for `h` is executing: `h` is in the
pending-removal set, and no other entry's once-wrapper captured `h`. -/
def PInv (h : Nat) (d : Dispatcher) : Prop :=
  h ∈ d.listenersScheduledForRemoval ∧
  AllEntries d (fun e => e.handle ≠ h → onceIdNe h e = true)

/-- Job side conditions for `pending_run`. -/
def jobP (h : Nat) : Job → Prop
  | .entries es _ _ => ∀ e ∈ es, e.handle ≠ h → onceIdNe h e = true
  | .cb h0 c _ _ => h0 ≠ h ∧ ∀ lid b, c = .onceWrap lid b → lid ≠ h
  | _ => True

/-- While `h` is pending (inside its own wrapper), no run invokes `h`:
its entries are skipped by the dispatch loop, only its own wrapper could
erase it from the set, and (absent handle reuse, witnessed by the
trace) no new entry for `h` can appear. -/
theorem pending_run {h : Nat} :
    ∀ (fuel : Nat) (d : Dispatcher) (j : Job) (d2 : Dispatcher) (tr : List Event),
      run fuel d j = some (d2, tr) → Event.registered h ∉ tr →
      PInv h d → jobP h j →
      countInvoke h tr = 0 ∧ PInv h d2 := by
  intro fuel
  induction fuel with
  | zero =>
    intro d j d2 tr hr
    rw [run_zero] at hr
    cases hr
  | succ f ih =>
    intro d j d2 tr hrun hreg hP hjob
    cases j with
    | prog p =>
      cases p with
      | nil =>
        obtain ⟨rfl, rfl⟩ := run_prog_nil_inv hrun
        exact ⟨rfl, hP⟩
      | cons c cs =>
        obtain ⟨d1, t1, t2, h1, h2, rfl⟩ := run_prog_cons_inv hrun
        obtain ⟨hr1, hr2⟩ := reg_not_mem_append hreg
        obtain ⟨hc1, hP1⟩ := ih d (.cmd c) d1 t1 h1 hr1 hP trivial
        obtain ⟨hc2, hP2⟩ := ih d1 (.prog cs) d2 t2 h2 hr2 hP1 trivial
        rw [countInvoke_append, hc1, hc2]
        exact ⟨rfl, hP2⟩
    | cmd c =>
      cases c with
      | listen ty p b =>
        obtain ⟨rfl, rfl⟩ := run_cmd_listen_inv hrun
        have hne : d.nextListenerId ≠ h := by
          intro heq
          exact hreg (by rw [heq]; exact List.mem_singleton.mpr rfl)
        refine ⟨rfl, hP.1, AllEntries_addListener hP.2 ?_⟩
        intro _
        rfl
      | listenOnce ty p b =>
        obtain ⟨rfl, rfl⟩ := run_cmd_listenOnce_inv hrun
        have hne : d.nextListenerId ≠ h := by
          intro heq
          exact hreg (by rw [heq]; exact List.mem_singleton.mpr rfl)
        refine ⟨rfl, hP.1, AllEntries_addListener hP.2 ?_⟩
        intro _
        simpa [onceIdNe] using hne
      | dispatch ty pay =>
        rw [run_cmd_dispatch_eq] at hrun
        exact ih d (.disp ty pay) d2 tr hrun hreg hP trivial
      | queue ty pay =>
        obtain ⟨rfl, rfl⟩ := run_cmd_queue_inv hrun
        exact ⟨rfl, hP.1, AllEntries_eq_buckets rfl hP.2⟩
      | process =>
        rw [run_cmd_process_eq] at hrun
        exact ih d (.procLoop 0) d2 tr hrun hreg hP trivial
      | remove h0 =>
        obtain ⟨rfl, rfl⟩ := run_cmd_remove_inv hrun
        refine ⟨rfl, ?_, AllEntries_removeFn hP.2⟩
        rw [removeFn_pending]
        exact hP.1
    | disp ty pay =>
      obtain ⟨t1, h1, rfl⟩ := run_disp_inv hrun
      have hes : jobP h (.entries ((lookupBucket d ty).getD []) ty pay) := by
        intro e he hne
        obtain ⟨p2, hp2, hep2⟩ := mem_of_bucketOf he
        exact hP.2 p2 hp2 e hep2 hne
      obtain ⟨hc1, hP1⟩ := ih d _ d2 t1 h1 (reg_not_mem_cons hreg) hP hes
      rw [countInvoke_cons_dispatched, hc1]
      exact ⟨rfl, hP1⟩
    | entries es ty pay =>
      cases es with
      | nil =>
        obtain ⟨rfl, rfl⟩ := run_entries_nil_inv hrun
        exact ⟨rfl, hP⟩
      | cons e es2 =>
        by_cases hmem : e.handle ∈ d.listenersScheduledForRemoval
        · rw [run_entries_cons_skip d es2 ty pay hmem] at hrun
          exact ih d (.entries es2 ty pay) d2 tr hrun hreg hP
            (fun e2 he2 => hjob e2 (List.mem_cons_of_mem e he2))
        · have hneh : e.handle ≠ h := fun heq => hmem (heq ▸ hP.1)
          obtain ⟨d1, t1, t2, h1, h2, rfl⟩ := run_entries_cons_inv hmem hrun
          obtain ⟨hr1, hr2⟩ := reg_not_mem_append hreg
          have hcb : jobP h (.cb e.handle e.callback ty pay) := by
            refine ⟨hneh, fun lid b hc => ?_⟩
            exact onceIdNe_ne (hjob e (List.mem_cons_self e es2) hneh) hc
          obtain ⟨hc1, hP1⟩ := ih d _ d1 t1 h1 hr1 hP hcb
          obtain ⟨hc2, hP2⟩ := ih d1 (.entries es2 ty pay) d2 t2 h2 hr2 hP1
            (fun e2 he2 => hjob e2 (List.mem_cons_of_mem e he2))
          rw [countInvoke_append, hc1, hc2]
          exact ⟨rfl, hP2⟩
    | cb h0 c ty pay =>
      cases c with
      | plain body =>
        obtain ⟨t1, h1, rfl⟩ := run_cb_plain_inv hrun
        obtain ⟨hc1, hP1⟩ := ih d (.prog body) d2 t1 h1
          (reg_not_mem_cons hreg) hP trivial
        rw [countInvoke_cons_invoke, hc1, if_neg hjob.1]
        exact ⟨rfl, hP1⟩
      | onceWrap lid body =>
        obtain ⟨d1, t1, h1, rfl, rfl⟩ := run_cb_once_inv hrun
        have hlid : lid ≠ h := hjob.2 lid body rfl
        have hPins : PInv h ({ d with listenersScheduledForRemoval := pendingInsert d.listenersScheduledForRemoval lid }) :=
          ⟨mem_pendingInsert_of_mem hP.1, AllEntries_eq_buckets rfl hP.2⟩
        obtain ⟨hc1, hP1⟩ := ih _ (.prog body) d1 t1 h1
          (reg_not_mem_cons hreg) hPins trivial
        rw [countInvoke_cons_invoke, hc1, if_neg hjob.1]
        refine ⟨rfl, ?_, AllEntries_removeFn (AllEntries_eq_buckets rfl hP1.2)⟩
        rw [removeFn_pending]
        exact mem_pendingErase_of_mem hP1.1 (fun heq => hlid heq.symm)
    | procLoop i =>
      rcases hq : d.queuedDispatches[i]? with _ | ⟨ty, pay⟩
      · obtain ⟨rfl, rfl⟩ := run_procLoop_none_inv hq hrun
        exact ⟨rfl, hP.1, AllEntries_eq_buckets rfl hP.2⟩
      · obtain ⟨d1, t1, t2, h1, h2, rfl⟩ := run_procLoop_some_inv hq hrun
        obtain ⟨hr1, hr2⟩ := reg_not_mem_append hreg
        obtain ⟨hc1, hP1⟩ := ih d (.disp ty pay) d1 t1 h1 hr1 hP trivial
        obtain ⟨hc2, hP2⟩ := ih d1 (.procLoop (i + 1)) d2 t2 h2 hr2 hP1 trivial
        rw [countInvoke_append, hc1, hc2]
        exact ⟨rfl, hP2⟩

end Tinyevents

namespace Tinyevents

theorem allHandles_eq_buckets {d1 d2 : Dispatcher}
    (h : d1.listenersByType = d2.listenersByType) :
    allHandles d1 = allHandles d2 := by
  rw [allHandles, allHandles, h]

/-- Invariant once `h` has fired and been removed: `h` is neither
pending nor registered, and no stored once-wrapper captured `h`. -/
def GInv (h : Nat) (d : Dispatcher) : Prop :=
  h ∉ d.listenersScheduledForRemoval ∧
  h ∉ allHandles d ∧
  AllEntries d (fun e => onceIdNe h e = true)

/-- Job side conditions for `gone_run`. -/
def jobG (h : Nat) : Job → Prop
  | .entries es _ _ => ∀ e ∈ es, e.handle ≠ h ∧ onceIdNe h e = true
  | .cb h0 c _ _ => h0 ≠ h ∧ ∀ lid b, c = .onceWrap lid b → lid ≠ h
  | _ => True

/-- Once `h` is gone from the registry (and, by the trace hypothesis,
its handle is never reassigned), no later run invokes it. -/
theorem gone_run {h : Nat} :
    ∀ (fuel : Nat) (d : Dispatcher) (j : Job) (d2 : Dispatcher) (tr : List Event),
      run fuel d j = some (d2, tr) → Event.registered h ∉ tr →
      GInv h d → jobG h j →
      countInvoke h tr = 0 ∧ GInv h d2 := by
  intro fuel
  induction fuel with
  | zero =>
    intro d j d2 tr hr
    rw [run_zero] at hr
    cases hr
  | succ f ih =>
    intro d j d2 tr hrun hreg hG hjob
    cases j with
    | prog p =>
      cases p with
      | nil =>
        obtain ⟨rfl, rfl⟩ := run_prog_nil_inv hrun
        exact ⟨rfl, hG⟩
      | cons c cs =>
        obtain ⟨d1, t1, t2, h1, h2, rfl⟩ := run_prog_cons_inv hrun
        obtain ⟨hr1, hr2⟩ := reg_not_mem_append hreg
        obtain ⟨hc1, hG1⟩ := ih d (.cmd c) d1 t1 h1 hr1 hG trivial
        obtain ⟨hc2, hG2⟩ := ih d1 (.prog cs) d2 t2 h2 hr2 hG1 trivial
        rw [countInvoke_append, hc1, hc2]
        exact ⟨rfl, hG2⟩
    | cmd c =>
      cases c with
      | listen ty p b =>
        obtain ⟨rfl, rfl⟩ := run_cmd_listen_inv hrun
        have hne : d.nextListenerId ≠ h := by
          intro heq
          exact hreg (by rw [heq]; exact List.mem_singleton.mpr rfl)
        exact ⟨rfl, hG.1, not_mem_allHandles_addListener hne hG.2.1,
          AllEntries_addListener hG.2.2 rfl⟩
      | listenOnce ty p b =>
        obtain ⟨rfl, rfl⟩ := run_cmd_listenOnce_inv hrun
        have hne : d.nextListenerId ≠ h := by
          intro heq
          exact hreg (by rw [heq]; exact List.mem_singleton.mpr rfl)
        exact ⟨rfl, hG.1, not_mem_allHandles_addListener hne hG.2.1,
          AllEntries_addListener hG.2.2 (by simpa [onceIdNe] using hne)⟩
      | dispatch ty pay =>
        rw [run_cmd_dispatch_eq] at hrun
        exact ih d (.disp ty pay) d2 tr hrun hreg hG trivial
      | queue ty pay =>
        obtain ⟨rfl, rfl⟩ := run_cmd_queue_inv hrun
        exact ⟨rfl, hG.1, allHandles_eq_buckets (rfl :
          d.listenersByType = d.listenersByType) ▸ hG.2.1,
          AllEntries_eq_buckets rfl hG.2.2⟩
      | process =>
        rw [run_cmd_process_eq] at hrun
        exact ih d (.procLoop 0) d2 tr hrun hreg hG trivial
      | remove h0 =>
        obtain ⟨rfl, rfl⟩ := run_cmd_remove_inv hrun
        refine ⟨rfl, ?_, not_mem_allHandles_removeFn hG.2.1,
          AllEntries_removeFn hG.2.2⟩
        rw [removeFn_pending]
        exact hG.1
    | disp ty pay =>
      obtain ⟨t1, h1, rfl⟩ := run_disp_inv hrun
      have hes : jobG h (.entries ((lookupBucket d ty).getD []) ty pay) := by
        intro e he
        obtain ⟨p2, hp2, hep2⟩ := mem_of_bucketOf he
        refine ⟨fun heq => hG.2.1 (heq ▸ mem_allHandles_intro hp2 hep2), ?_⟩
        exact hG.2.2 p2 hp2 e hep2
      obtain ⟨hc1, hG1⟩ := ih d _ d2 t1 h1 (reg_not_mem_cons hreg) hG hes
      rw [countInvoke_cons_dispatched, hc1]
      exact ⟨rfl, hG1⟩
    | entries es ty pay =>
      cases es with
      | nil =>
        obtain ⟨rfl, rfl⟩ := run_entries_nil_inv hrun
        exact ⟨rfl, hG⟩
      | cons e es2 =>
        by_cases hmem : e.handle ∈ d.listenersScheduledForRemoval
        · rw [run_entries_cons_skip d es2 ty pay hmem] at hrun
          exact ih d (.entries es2 ty pay) d2 tr hrun hreg hG
            (fun e2 he2 => hjob e2 (List.mem_cons_of_mem e he2))
        · obtain ⟨d1, t1, t2, h1, h2, rfl⟩ := run_entries_cons_inv hmem hrun
          obtain ⟨hr1, hr2⟩ := reg_not_mem_append hreg
          obtain ⟨hneh, hone⟩ := hjob e (List.mem_cons_self e es2)
          have hcb : jobG h (.cb e.handle e.callback ty pay) :=
            ⟨hneh, fun lid b hc => onceIdNe_ne hone hc⟩
          obtain ⟨hc1, hG1⟩ := ih d _ d1 t1 h1 hr1 hG hcb
          obtain ⟨hc2, hG2⟩ := ih d1 (.entries es2 ty pay) d2 t2 h2 hr2 hG1
            (fun e2 he2 => hjob e2 (List.mem_cons_of_mem e he2))
          rw [countInvoke_append, hc1, hc2]
          exact ⟨rfl, hG2⟩
    | cb h0 c ty pay =>
      cases c with
      | plain body =>
        obtain ⟨t1, h1, rfl⟩ := run_cb_plain_inv hrun
        obtain ⟨hc1, hG1⟩ := ih d (.prog body) d2 t1 h1
          (reg_not_mem_cons hreg) hG trivial
        rw [countInvoke_cons_invoke, hc1, if_neg hjob.1]
        exact ⟨rfl, hG1⟩
      | onceWrap lid body =>
        obtain ⟨d1, t1, h1, rfl, rfl⟩ := run_cb_once_inv hrun
        have hlid : lid ≠ h := hjob.2 lid body rfl
        have hGins : GInv h ({ d with listenersScheduledForRemoval := pendingInsert d.listenersScheduledForRemoval lid }) :=
          ⟨not_mem_pendingInsert hG.1 (fun heq => hlid heq.symm), hG.2.1,
            AllEntries_eq_buckets rfl hG.2.2⟩
        obtain ⟨hc1, hG1⟩ := ih _ (.prog body) d1 t1 h1
          (reg_not_mem_cons hreg) hGins trivial
        rw [countInvoke_cons_invoke, hc1, if_neg hjob.1]
        refine ⟨rfl, ?_, not_mem_allHandles_removeFn hG1.2.1,
          AllEntries_removeFn (AllEntries_eq_buckets rfl hG1.2.2)⟩
        rw [removeFn_pending]
        exact not_mem_pendingErase_of_not_mem hG1.1
    | procLoop i =>
      rcases hq : d.queuedDispatches[i]? with _ | ⟨ty, pay⟩
      · obtain ⟨rfl, rfl⟩ := run_procLoop_none_inv hq hrun
        exact ⟨rfl, hG.1, hG.2.1, AllEntries_eq_buckets rfl hG.2.2⟩
      · obtain ⟨d1, t1, t2, h1, h2, rfl⟩ := run_procLoop_some_inv hq hrun
        obtain ⟨hr1, hr2⟩ := reg_not_mem_append hreg
        obtain ⟨hc1, hG1⟩ := ih d (.disp ty pay) d1 t1 h1 hr1 hG trivial
        obtain ⟨hc2, hG2⟩ := ih d1 (.procLoop (i + 1)) d2 t2 h2 hr2 hG1 trivial
        rw [countInvoke_append, hc1, hc2]
        exact ⟨rfl, hG2⟩

end Tinyevents

namespace Tinyevents

theorem AllEntries_imp {d : Dispatcher} {P Q : ListenerEntry → Prop}
    (hall : AllEntries d P) (himp : ∀ e, P e → Q e) : AllEntries d Q :=
  fun p hp e he => himp e (hall p hp e he)

theorem isOnceH_elim {h : Nat} {e : ListenerEntry} (ho : isOnceH h e = true) :
    ∃ b, e.callback = .onceWrap h b := by
  cases hc : e.callback with
  | plain b =>
    rw [isOnceH, hc] at ho
    cases ho
  | onceWrap lid b =>
    rw [isOnceH, hc] at ho
    simp only [beq_iff_eq] at ho
    exact ⟨b, by rw [ho]⟩

theorem onceIdNe_intro {h : Nat} {n : Nat} {pr : Int} {cb : Callback}
    (ho : ∀ lid b, cb = .onceWrap lid b → lid ≠ h) :
    onceIdNe h ⟨n, pr, cb⟩ = true := by
  cases cb with
  | plain b => rfl
  | onceWrap lid b =>
    simp only [onceIdNe]
    simpa using ho lid b rfl

theorem AllEntries_removeFn_target {d : Dispatcher} {h : Nat}
    {P : ListenerEntry → Prop}
    (hall : AllEntries d (fun e => e.handle ≠ h → P e))
    (hp : h ∉ d.listenersScheduledForRemoval) :
    AllEntries (removeFn d h) P := by
  rw [removeFn, if_neg hp]
  intro q hq e he
  rcases List.mem_map.mp hq with ⟨p, hpm, rfl⟩
  rcases List.mem_filter.mp he with ⟨hep, hne⟩
  exact hall p hpm e hep (by simpa using hne)

/-- Handle `h` appears only in the bucket keyed `ty`. -/
def OnlyTy (h ty : Nat) (d : Dispatcher) : Prop :=
  ∀ p ∈ d.listenersByType, p.1 ≠ ty → ∀ e ∈ p.2, e.handle ≠ h

theorem OnlyTy_addListener {d : Dispatcher} {h ty ty2 : Nat} {pr : Int}
    {cb : Callback} (ho : OnlyTy h ty d) (hne : d.nextListenerId ≠ h) :
    OnlyTy h ty (addListener d ty2 pr cb).1 := by
  intro q hq hkey e he
  rcases mem_setBucket hq with rfl | hq2
  · rcases (insertEntry_mem _ _ _).mp he with rfl | he2
    · exact hne
    · obtain ⟨p2, hp2, hkey2, hep2⟩ := bucketOf_key he2
      exact ho p2 hp2 (hkey2 ▸ hkey) e hep2
  · exact ho q hq2 hkey e he

theorem OnlyTy_removeFn {d : Dispatcher} {h ty h2 : Nat} (ho : OnlyTy h ty d) :
    OnlyTy h ty (removeFn d h2) := by
  rw [removeFn]
  split
  · exact ho
  · intro q hq hkey e he
    rcases List.mem_map.mp hq with ⟨p, hpm, rfl⟩
    exact ho p hpm hkey e (List.mem_filter.mp he).1

theorem OnlyTy_eq_buckets {d1 d2 : Dispatcher} {h ty : Nat}
    (heq : d1.listenersByType = d2.listenersByType) (ho : OnlyTy h ty d1) :
    OnlyTy h ty d2 := by
  intro p hp hkey e he
  exact ho p (heq ▸ hp) hkey e he

/-- Invariant while `h`'s once-listener is armed (or already removed):
`h` is not pending; every other entry's callback avoids type `ty`
(hereditarily) and did not capture `h`; any entry with handle `h` is the
once-wrapper for `h`; `h` lives only in `ty`'s bucket, at most once. -/
def AInv (h ty : Nat) (d : Dispatcher) : Prop :=
  h ∉ d.listenersScheduledForRemoval ∧
  AllEntries d (fun e => e.handle ≠ h →
    (avoidsCb ty e.callback = true ∧ onceIdNe h e = true)) ∧
  AllEntries d (fun e => e.handle = h → isOnceH h e = true) ∧
  OnlyTy h ty d ∧
  (bucketOf d ty).countP (fun e => e.handle == h) ≤ 1

theorem countP_bucket_ne {d : Dispatcher} {h ty ty2 : Nat}
    (ho : OnlyTy h ty d) (hne : ty2 ≠ ty) :
    (bucketOf d ty2).countP (fun e => e.handle == h) = 0 := by
  rw [List.countP_eq_zero]
  intro e he
  obtain ⟨p, hp, hkey, hep⟩ := bucketOf_key he
  simpa using ho p hp (hkey ▸ hne) e hep

theorem AInv_addListener {d : Dispatcher} {h ty ty2 : Nat} {pr : Int}
    {cb : Callback} (hA : AInv h ty d) (hne : d.nextListenerId ≠ h)
    (hav : avoidsCb ty cb = true)
    (honce : ∀ lid b, cb = .onceWrap lid b → lid ≠ h) :
    AInv h ty (addListener d ty2 pr cb).1 := by
  refine ⟨hA.1, ?_, ?_, OnlyTy_addListener hA.2.2.2.1 hne, ?_⟩
  · exact AllEntries_addListener hA.2.1 (fun _ => ⟨hav, onceIdNe_intro honce⟩)
  · exact AllEntries_addListener hA.2.2.1 (fun heq => absurd heq hne)
  · rw [bucketOf_addListener]
    split
    · rename_i hty
      subst hty
      rw [countP_insertEntry]
      have : ((⟨d.nextListenerId, pr, cb⟩ : ListenerEntry).handle == h) = false := by
        simpa using hne
      rw [this]
      simpa using hA.2.2.2.2
    · exact hA.2.2.2.2

theorem find_map_snd (l : List (Nat × List ListenerEntry))
    (g : List ListenerEntry → List ListenerEntry) (ty : Nat) :
    (l.map (fun p => (p.1, g p.2))).find? (fun p => p.1 == ty) =
      (l.find? (fun p => p.1 == ty)).map (fun p => (p.1, g p.2)) := by
  induction l with
  | nil => rfl
  | cons kv rest ih =>
    obtain ⟨k, v⟩ := kv
    cases hbeq : (k == ty) with
    | false =>
      rw [List.map_cons, List.find?_cons_of_neg _ (by simp [hbeq]),
        List.find?_cons_of_neg _ (by simp [hbeq]), ih]
    | true =>
      rw [List.map_cons, List.find?_cons_of_pos _ (by simp [hbeq]),
        List.find?_cons_of_pos _ (by simpa using hbeq)]
      rfl

theorem bucketOf_removeFn (d : Dispatcher) (h2 ty : Nat)
    (hp : h2 ∉ d.listenersScheduledForRemoval) :
    bucketOf (removeFn d h2) ty =
      (bucketOf d ty).filter (fun e => e.handle ≠ h2) := by
  rw [removeFn, if_neg hp]
  simp only [bucketOf_eq_listenersByType]
  rw [find_map_snd]
  rcases hfind : d.listenersByType.find? (fun p => p.1 == ty) with _ | p
  · rw [hfind]
    rfl
  · rw [hfind]
    rfl

theorem bucketOf_removeFn_le {d : Dispatcher} {h ty h2 : Nat}
    (hle : (bucketOf d ty).countP (fun e => e.handle == h) ≤ 1) :
    (bucketOf (removeFn d h2) ty).countP (fun e => e.handle == h) ≤ 1 := by
  by_cases hp : h2 ∈ d.listenersScheduledForRemoval
  · rw [removeFn, if_pos hp]
    exact hle
  · rw [bucketOf_removeFn d h2 ty hp]
    exact le_trans (countP_filter_le _ _ _) hle

theorem AInv_removeFn {d : Dispatcher} {h ty h2 : Nat} (hA : AInv h ty d) :
    AInv h ty (removeFn d h2) := by
  refine ⟨?_, AllEntries_removeFn hA.2.1, AllEntries_removeFn hA.2.2.1,
    OnlyTy_removeFn hA.2.2.2.1, bucketOf_removeFn_le hA.2.2.2.2⟩
  rw [removeFn_pending]
  exact hA.1

theorem AInv_pending {d : Dispatcher} {h ty : Nat} {s : List Nat}
    (hA : AInv h ty d) (hs : h ∉ s) :
    AInv h ty ({ d with listenersScheduledForRemoval := s }) := by
  refine ⟨hs, AllEntries_eq_buckets rfl hA.2.1,
    AllEntries_eq_buckets rfl hA.2.2.1, OnlyTy_eq_buckets rfl hA.2.2.2.1, ?_⟩
  exact hA.2.2.2.2

theorem AInv_eq_queue {d : Dispatcher} {h ty : Nat} {q : List (Nat × Nat)}
    (hA : AInv h ty d) :
    AInv h ty ({ d with queuedDispatches := q }) := by
  refine ⟨hA.1, AllEntries_eq_buckets rfl hA.2.1,
    AllEntries_eq_buckets rfl hA.2.2.1, OnlyTy_eq_buckets rfl hA.2.2.2.1, ?_⟩
  exact hA.2.2.2.2

/-- Job side conditions for `armed_run`. -/
def jobA (h ty : Nat) : Job → Prop
  | .prog p => avoidsProg ty p = true
  | .cmd c => avoidsCmd ty c = true
  | .disp _ _ => True
  | .entries es _ _ =>
      (∀ e ∈ es,
        (e.handle ≠ h → avoidsCb ty e.callback = true ∧ onceIdNe h e = true) ∧
        (e.handle = h → isOnceH h e = true)) ∧
      es.countP (fun e => e.handle == h) ≤ 1
  | .cb h0 c _ _ =>
      (h0 = h → ∃ b, c = .onceWrap h b) ∧
      (h0 ≠ h → avoidsCb ty c = true ∧ ∀ lid b, c = .onceWrap lid b → lid ≠ h)
  | .procLoop _ => False

/-- The number of invocations of `h` one job performs from an armed
state. -/
def expectInv (h ty : Nat) (d : Dispatcher) : Job → Nat
  | .disp ty2 _ => (bucketOf d ty2).countP (fun e => e.handle == h)
  | .entries es _ _ => es.countP (fun e => e.handle == h)
  | .cb h0 _ _ _ => if h0 = h then 1 else 0
  | _ => 0

end Tinyevents

namespace Tinyevents


/-- From an armed state, a run whose commands either avoid type `ty` or
are top-level dispatches of `ty` invokes `h` exactly as many times as
the corresponding snapshot holds it; afterwards the state is armed
again (if `h` did not fire) or gone (if it fired once). -/
theorem armed_run {h ty : Nat} :
    ∀ (fuel : Nat) (d : Dispatcher) (j : Job) (d2 : Dispatcher) (tr : List Event),
      run fuel d j = some (d2, tr) → Event.registered h ∉ tr →
      AInv h ty d → jobA h ty j →
      countInvoke h tr = expectInv h ty d j ∧
      (countInvoke h tr = 0 → AInv h ty d2) ∧
      (countInvoke h tr = 1 → GInv h d2) := by
  intro fuel
  induction fuel with
  | zero =>
    intro d j d2 tr hr
    rw [run_zero] at hr
    cases hr
  | succ f ih =>
    intro d j d2 tr hrun hreg hA hjob
    cases j with
    | prog p =>
      simp only [expectInv]
      cases p with
      | nil =>
        obtain ⟨rfl, rfl⟩ := run_prog_nil_inv hrun
        exact ⟨rfl, fun _ => hA,
          fun hc => absurd (show (0 : Nat) = 1 from hc) (by decide)⟩
      | cons c cs =>
        obtain ⟨d1, t1, t2, h1, h2, rfl⟩ := run_prog_cons_inv hrun
        obtain ⟨hr1, hr2⟩ := reg_not_mem_append hreg
        simp only [jobA, avoidsProg, Bool.and_eq_true] at hjob
        obtain ⟨he1, hA0, _⟩ := ih d (.cmd c) d1 t1 h1 hr1 hA hjob.1
        simp only [expectInv] at he1
        have hA1 := hA0 he1
        obtain ⟨he2, hA02, _⟩ := ih d1 (.prog cs) d2 t2 h2 hr2 hA1 hjob.2
        simp only [expectInv] at he2
        have hcount : countInvoke h (t1 ++ t2) = 0 := by
          rw [countInvoke_append, he1, he2]
        exact ⟨hcount, fun _ => hA02 he2,
          fun hc => absurd (hcount.symm.trans hc) (by decide)⟩
    | cmd c =>
      simp only [expectInv]
      cases c with
      | listen ty3 p b =>
        simp only [jobA, avoidsCmd] at hjob
        obtain ⟨rfl, rfl⟩ := run_cmd_listen_inv hrun
        have hne : d.nextListenerId ≠ h := by
          intro heq
          exact hreg (by rw [heq]; exact List.mem_singleton.mpr rfl)
        refine ⟨rfl, fun _ => ?_,
          fun hc => absurd (show (0 : Nat) = 1 from hc) (by decide)⟩
        exact AInv_addListener hA hne hjob (fun lid b2 hc => nomatch hc)
      | listenOnce ty3 p b =>
        simp only [jobA, avoidsCmd] at hjob
        obtain ⟨rfl, rfl⟩ := run_cmd_listenOnce_inv hrun
        have hne : d.nextListenerId ≠ h := by
          intro heq
          exact hreg (by rw [heq]; exact List.mem_singleton.mpr rfl)
        refine ⟨rfl, fun _ => ?_,
          fun hc => absurd (show (0 : Nat) = 1 from hc) (by decide)⟩
        refine AInv_addListener hA hne hjob ?_
        intro lid b2 hc
        cases hc
        exact hne
      | dispatch ty3 pay =>
        simp only [jobA, avoidsCmd, bne_iff_ne, ne_eq] at hjob
        rw [run_cmd_dispatch_eq] at hrun
        obtain ⟨heD, hA0, _⟩ := ih d (.disp ty3 pay) d2 tr hrun hreg hA trivial
        simp only [expectInv] at heD
        have hzero : (bucketOf d ty3).countP (fun e => e.handle == h) = 0 :=
          countP_bucket_ne hA.2.2.2.1 hjob
        have hcount : countInvoke h tr = 0 := by rw [heD, hzero]
        exact ⟨hcount, fun _ => hA0 hcount,
          fun hc => absurd (hcount.symm.trans hc) (by decide)⟩
      | queue ty3 pay =>
        obtain ⟨rfl, rfl⟩ := run_cmd_queue_inv hrun
        exact ⟨rfl, fun _ => AInv_eq_queue hA,
          fun hc => absurd (show (0 : Nat) = 1 from hc) (by decide)⟩
      | process =>
        exact absurd (show (false : Bool) = true from hjob) (by decide)
      | remove h2 =>
        obtain ⟨rfl, rfl⟩ := run_cmd_remove_inv hrun
        exact ⟨rfl, fun _ => AInv_removeFn hA,
          fun hc => absurd (show (0 : Nat) = 1 from hc) (by decide)⟩
    | disp ty2 pay =>
      obtain ⟨t1, h1, rfl⟩ := run_disp_inv hrun
      have hes : jobA h ty (.entries ((lookupBucket d ty2).getD []) ty2 pay) := by
        refine ⟨?_, ?_⟩
        · intro e he
          obtain ⟨p2, hp2, hep2⟩ := mem_of_bucketOf he
          exact ⟨fun hneh => hA.2.1 p2 hp2 e hep2 hneh,
            fun heqh => hA.2.2.1 p2 hp2 e hep2 heqh⟩
        · by_cases hty2 : ty2 = ty
          · subst hty2
            exact hA.2.2.2.2
          · have h0 := countP_bucket_ne hA.2.2.2.1 hty2
            show (bucketOf d ty2).countP (fun e => e.handle == h) ≤ 1
            omega
      obtain ⟨heE, hA0, hG1⟩ := ih d _ d2 t1 h1 (reg_not_mem_cons hreg) hA hes
      simp only [expectInv] at heE ⊢
      refine ⟨?_, ?_, ?_⟩
      · rw [countInvoke_cons_dispatched, heE]
        rfl
      · intro hz
        rw [countInvoke_cons_dispatched] at hz
        exact hA0 hz
      · intro hc
        rw [countInvoke_cons_dispatched] at hc
        exact hG1 hc
    | entries es ty2 pay =>
      obtain ⟨hper, hcnt⟩ := hjob
      simp only [expectInv]
      cases es with
      | nil =>
        obtain ⟨rfl, rfl⟩ := run_entries_nil_inv hrun
        exact ⟨rfl, fun _ => hA,
          fun hc => absurd (show (0 : Nat) = 1 from hc) (by decide)⟩
      | cons e es2 =>
        by_cases hmem : e.handle ∈ d.listenersScheduledForRemoval
        · have hneh : e.handle ≠ h := fun heq => hA.1 (heq ▸ hmem)
          have hbf : (e.handle == h) = false := by
            simpa using hneh
          rw [run_entries_cons_skip d es2 ty2 pay hmem] at hrun
          have hjob2 : jobA h ty (.entries es2 ty2 pay) := by
            refine ⟨fun e2 he2 => hper e2 (List.mem_cons_of_mem e he2), ?_⟩
            rw [List.countP_cons, hbf] at hcnt
            simpa using hcnt
          obtain ⟨heE, hA0, hG1⟩ := ih d _ d2 tr hrun hreg hA hjob2
          simp only [expectInv] at heE
          refine ⟨?_, hA0, hG1⟩
          rw [heE, List.countP_cons, hbf]
          simp
        · by_cases heqh : e.handle = h
          · obtain ⟨d1, t1, t2, h1, h2, rfl⟩ := run_entries_cons_inv hmem hrun
            obtain ⟨hr1, hr2⟩ := reg_not_mem_append hreg
            have hcb : jobA h ty (.cb e.handle e.callback ty2 pay) := by
              refine ⟨fun _ => ?_, fun hne2 => absurd heqh hne2⟩
              exact isOnceH_elim ((hper e (List.mem_cons_self e es2)).2 heqh)
            obtain ⟨heC, _, hG1f⟩ := ih d _ d1 t1 h1 hr1 hA hcb
            simp only [expectInv] at heC
            rw [if_pos heqh] at heC
            have hG1 := hG1f heC
            have hbt : (e.handle == h) = true := by
              simpa using heqh
            have hcnt2 : es2.countP (fun e2 => e2.handle == h) = 0 := by
              rw [List.countP_cons_of_pos (fun e2 => e2.handle == h) es2 hbt] at hcnt
              omega
            have hjG : jobG h (.entries es2 ty2 pay) := by
              intro e2 he2
              have hne2 : e2.handle ≠ h := by
                have := List.countP_eq_zero.mp hcnt2 e2 he2
                simpa using this
              exact ⟨hne2, ((hper e2 (List.mem_cons_of_mem e he2)).1 hne2).2⟩
            obtain ⟨hc2, hG2⟩ := gone_run f d1 (.entries es2 ty2 pay) d2 t2 h2
              hr2 hG1 hjG
            have hcount : countInvoke h (t1 ++ t2) = 1 := by
              rw [countInvoke_append, heC, hc2]
            refine ⟨?_, fun hz => absurd (hcount.symm.trans hz) (by decide),
              fun _ => hG2⟩
            rw [hcount, List.countP_cons, hbt, hcnt2]
            simp
          · obtain ⟨d1, t1, t2, h1, h2, rfl⟩ := run_entries_cons_inv hmem hrun
            obtain ⟨hr1, hr2⟩ := reg_not_mem_append hreg
            have hbf : (e.handle == h) = false := by
              simpa using heqh
            have hcb : jobA h ty (.cb e.handle e.callback ty2 pay) := by
              refine ⟨fun heq2 => absurd heq2 heqh, fun _ => ?_⟩
              have hp := (hper e (List.mem_cons_self e es2)).1 heqh
              exact ⟨hp.1, fun lid b hb => onceIdNe_ne hp.2 hb⟩
            obtain ⟨heC, hA0c, _⟩ := ih d _ d1 t1 h1 hr1 hA hcb
            simp only [expectInv] at heC
            rw [if_neg heqh] at heC
            have hA1 := hA0c heC
            have hjob2 : jobA h ty (.entries es2 ty2 pay) := by
              refine ⟨fun e2 he2 => hper e2 (List.mem_cons_of_mem e he2), ?_⟩
              rw [List.countP_cons, hbf] at hcnt
              simpa using hcnt
            obtain ⟨heE, hA02, hG12⟩ := ih d1 _ d2 t2 h2 hr2 hA1 hjob2
            simp only [expectInv] at heE
            have hcount : countInvoke h (t1 ++ t2) =
                es2.countP (fun e2 => e2.handle == h) := by
              rw [countInvoke_append, heC, heE]
              simp
            refine ⟨?_, ?_, ?_⟩
            · rw [hcount, List.countP_cons, hbf]
              simp
            · intro hz
              rw [hcount] at hz
              exact hA02 (heE.trans hz)
            · intro hc
              rw [hcount] at hc
              exact hG12 (heE.trans hc)
    | cb h0 c ty2 pay =>
      by_cases heqh : h0 = h
      · subst h0
        obtain ⟨b, rfl⟩ := hjob.1 rfl
        obtain ⟨d1, t1, h1, rfl, rfl⟩ := run_cb_once_inv hrun
        have hPins : PInv h ({ d with listenersScheduledForRemoval := pendingInsert d.listenersScheduledForRemoval h }) := by
          refine ⟨?_, AllEntries_eq_buckets rfl
            (AllEntries_imp hA.2.1 (fun e hi hne => (hi hne).2))⟩
          rw [pendingInsert, if_neg hA.1]
          exact List.mem_cons_self _ _
        obtain ⟨hc1, hP1⟩ := pending_run f _ (.prog b) d1 t1 h1
          (reg_not_mem_cons hreg) hPins trivial
        have hcount : countInvoke h (Event.invoke h ty2 pay :: t1) = 1 := by
          rw [countInvoke_cons_invoke, hc1]
          simp
        simp only [expectInv]
        refine ⟨by rw [hcount]; simp,
          fun hz => absurd (hcount.symm.trans hz) (by decide), fun _ => ?_⟩
        refine ⟨?_, ?_, ?_⟩
        · rw [removeFn_pending]
          exact not_mem_pendingErase_self _ _
        · exact removeFn_not_mem _ _ (not_mem_pendingErase_self _ _)
        · exact AllEntries_removeFn_target (AllEntries_eq_buckets rfl hP1.2)
            (not_mem_pendingErase_self _ _)
      · obtain ⟨hav, honce⟩ := hjob.2 heqh
        cases c with
        | plain body =>
          simp only [avoidsCb] at hav
          obtain ⟨t1, h1, rfl⟩ := run_cb_plain_inv hrun
          obtain ⟨he1, hA0, _⟩ := ih d (.prog body) d2 t1 h1
            (reg_not_mem_cons hreg) hA hav
          simp only [expectInv] at he1 ⊢
          have hcount : countInvoke h (Event.invoke h0 ty2 pay :: t1) = 0 := by
            rw [countInvoke_cons_invoke, he1, if_neg heqh]
          refine ⟨by rw [hcount, if_neg heqh], fun _ => hA0 he1,
            fun hc => absurd (hcount.symm.trans hc) (by decide)⟩
        | onceWrap lid body =>
          simp only [avoidsCb] at hav
          have hlid : lid ≠ h := honce lid body rfl
          obtain ⟨d1, t1, h1, rfl, rfl⟩ := run_cb_once_inv hrun
          have hAins := AInv_pending hA
            (not_mem_pendingInsert hA.1 (Ne.symm hlid))
          obtain ⟨he1, hA0, _⟩ := ih _ (.prog body) d1 t1 h1
            (reg_not_mem_cons hreg) hAins hav
          simp only [expectInv] at he1 ⊢
          have hA1 := hA0 he1
          have hA2 : AInv h ty (removeFn ({ d1 with listenersScheduledForRemoval := pendingErase d1.listenersScheduledForRemoval lid }) lid) :=
            AInv_removeFn (AInv_pending hA1
              (not_mem_pendingErase_of_not_mem hA1.1))
          have hcount : countInvoke h (Event.invoke h0 ty2 pay :: t1) = 0 := by
            rw [countInvoke_cons_invoke, he1, if_neg heqh]
          refine ⟨by rw [hcount, if_neg heqh], fun _ => hA2,
            fun hc => absurd (hcount.symm.trans hc) (by decide)⟩
    | procLoop i =>
      exact False.elim hjob

end Tinyevents

namespace Tinyevents

/-- C2 (amended): a once-listener with handle `h` on type `ty`, armed in a
state where every other stored callback hereditarily avoids dispatching
`ty` and avoids `process` (`AInv`), and whose bucket holds `h` exactly
once, is invoked exactly once across any nonempty sequence of top-level
`dispatch` calls for `ty` — including recursive dispatches of other
types from inside callbacks — and afterwards the handle is no longer in
the registry (`hasListener` is false).  The hypothesis
`Event.registered h ∉ tr` states that the 64-bit counter never
reassigns `h` during the run.  The original unrestricted claim is
refuted by `claim_C2_counterexample`: another listener that recursively
dispatches `ty` makes the once-listener fire twice in one outer pass. -/
theorem claim_C2 {h ty fuel : Nat} {d d2 : Dispatcher} {pays : List Nat}
    {tr : List Event}
    (hA : AInv h ty d)
    (hcp : (bucketOf d ty).countP (fun e => e.handle == h) = 1)
    (hps : pays ≠ [])
    (hrun : run fuel d
      (.prog (pays.map (fun pay => Cmd.dispatch ty pay))) = some (d2, tr))
    (hreg : Event.registered h ∉ tr) :
    countInvoke h tr = 1 ∧ hasListenerFn d2 h = false := by
  cases pays with
  | nil => exact absurd rfl hps
  | cons pay rest =>
    cases fuel with
    | zero =>
      rw [run_zero] at hrun
      cases hrun
    | succ f =>
      simp only [List.map_cons] at hrun
      obtain ⟨d1, t1, t2, h1, h2, rfl⟩ := run_prog_cons_inv hrun
      obtain ⟨hr1, hr2⟩ := reg_not_mem_append hreg
      cases f with
      | zero =>
        rw [run_zero] at h1
        cases h1
      | succ g =>
        rw [run_cmd_dispatch_eq] at h1
        obtain ⟨heD, _, hG1f⟩ := armed_run g d (.disp ty pay) d1 t1 h1 hr1 hA
          trivial
        simp only [expectInv] at heD
        rw [hcp] at heD
        have hG1 := hG1f heD
        obtain ⟨hc2, hG2⟩ := gone_run (g + 1) d1
          (.prog (rest.map (fun pay => Cmd.dispatch ty pay))) d2 t2 h2 hr2 hG1
          trivial
        refine ⟨?_, hasListenerFn_false_of_not_mem d2 h hG2.2.1⟩
        rw [countInvoke_append, heD, hc2]

/-- A plain listener (priority 5, empty body) and a once-listener
(handle 1, priority 0) on type 0. -/
def dC2w : Dispatcher := (listenOnceFn (listenFn emptyD 0 5 []).1 0 0 []).1

/-- Witness for C2: two dispatches of type 0 on `dC2w` invoke the
once-listener (handle 1) exactly once and drop it from the registry. -/
theorem claim_C2_witness :
    countInvoke 1
      [.dispatched 0 3, .invoke 0 0 3, .invoke 1 0 3,
       .dispatched 0 4, .invoke 0 0 4] = 1 ∧
    hasListenerFn (⟨[(0, [⟨0, 5, .plain []⟩])], [], [], 2⟩ : Dispatcher) 1 = false :=
  claim_C2
    (show AInv 1 0 dC2w by
      simp only [AInv, AllEntries, OnlyTy]
      decide)
    (by decide)
    (show ([3, 4] : List Nat) ≠ [] by decide)
    (show run 20 dC2w
        (.prog (List.map (fun pay => Cmd.dispatch 0 pay) [3, 4])) =
      some ((⟨[(0, [⟨0, 5, .plain []⟩])], [], [], 2⟩ : Dispatcher),
        [.dispatched 0 3, .invoke 0 0 3, .invoke 1 0 3,
         .dispatched 0 4, .invoke 0 0 4]) from rfl)
    (by decide)

/-- Two once-listeners on type 0: handle 0 (priority 1) recursively
dispatches type 0 from its body, handle 1 (priority 0) does nothing. -/
def dC2cex : Dispatcher :=
  (listenOnceFn (listenOnceFn emptyD 0 1 [.dispatch 0 99]).1 0 0 []).1

/-- Counterexample to the original C2: one top-level dispatch of type 0
invokes the registered once-listener with handle 1 twice — once from
the recursive inner dispatch (after which its wrapper removes it), and
once more from the outer pass's snapshot, whose pending-removal check
no longer sees it. -/
theorem claim_C2_counterexample :
    run 20 dC2cex (.prog [Cmd.dispatch 0 7]) =
      some ((⟨[(0, [])], [], [], 2⟩ : Dispatcher),
        [.dispatched 0 7, .invoke 0 0 7, .dispatched 0 99,
         .invoke 1 0 99, .invoke 1 0 7]) ∧
    countInvoke 1
      [.dispatched 0 7, .invoke 0 0 7, .dispatched 0 99,
       .invoke 1 0 99, .invoke 1 0 7] = 2 ∧
    hasListenerFn dC2cex 1 = true :=
  ⟨rfl, rfl, rfl⟩

end Tinyevents
